import Mathlib

/-!
Verification of the Elemental distributed dense-matrix library.

Shallow embedding of the portable reference kernels and of the distributed
algorithm skeletons of the repository, with theorems settling the claims of
the specification against them.

Buffers are modelled as total functions `Nat → T` (column-major, with an
explicit leading dimension, exactly as in the C++ sources); loops that
mutate a buffer are modelled as iterated functional updates in the source's
iteration order.
-/

namespace Elemental

/-- Functional update of a flat buffer at index `q`. -/
def updF {T : Type} (C : Nat → T) (q : Nat) (v : T) : Nat → T :=
  fun r => if r = q then v else C r

@[simp] theorem updF_same {T : Type} (C : Nat → T) (q : Nat) (v : T) :
    updF C q v q = v := by simp [updF]

theorem updF_other {T : Type} (C : Nat → T) (q q' : Nat) (v : T) (h : q' ≠ q) :
    updF C q v q' = C q' := by simp [updF, h]

/-- `iterLoop body s C` runs `body 0`, `body 1`, …, `body (s-1)` on `C`,
in that order: the functional image of a C `for` loop over `[0, s)`. -/
def iterLoop {T : Type} (body : Nat → (Nat → T) → (Nat → T)) : Nat → (Nat → T) → (Nat → T)
  | 0, C => C
  | s + 1, C => body s (iterLoop body s C)

/-- Loop body updating the cell `enc idx` by `g idx` (read-modify-write). -/
def cellUpd {T : Type} (enc : Nat → Nat) (g : Nat → T → T) :
    Nat → (Nat → T) → (Nat → T) :=
  fun idx C => updF C (enc idx) (g idx (C (enc idx)))

/-- A `cellUpd` loop leaves every index outside its write set unchanged. -/
theorem cellLoop_miss {T : Type} (enc : Nat → Nat) (g : Nat → T → T) (s : Nat)
    (C : Nat → T) (q : Nat) (h : ∀ idx < s, q ≠ enc idx) :
    iterLoop (cellUpd enc g) s C q = C q := by
  induction s with
  | zero => rfl
  | succ s ih =>
      have hq : q ≠ enc s := h s (Nat.lt_succ_self s)
      calc iterLoop (cellUpd enc g) (s+1) C q
          = iterLoop (cellUpd enc g) s C q := updF_other _ _ _ _ hq
        _ = C q := ih (fun idx hidx => h idx (Nat.lt_succ_of_lt hidx))

/-- A `cellUpd` loop with an injective index map writes each hit cell once. -/
theorem cellLoop_hit {T : Type} (enc : Nat → Nat) (g : Nat → T → T) (s : Nat)
    (C : Nat → T) (idx : Nat) (hidx : idx < s)
    (hinj : ∀ a < s, ∀ b < s, enc a = enc b → a = b) :
    iterLoop (cellUpd enc g) s C (enc idx) = g idx (C (enc idx)) := by
  induction s with
  | zero => exact absurd hidx (Nat.not_lt_zero idx)
  | succ s ih =>
      rcases Nat.lt_succ_iff_lt_or_eq.mp hidx with h | h
      · have hne : enc idx ≠ enc s := by
          intro he
          have := hinj idx (Nat.lt_succ_of_lt h) s (Nat.lt_succ_self s) he
          omega
        calc iterLoop (cellUpd enc g) (s+1) C (enc idx)
            = iterLoop (cellUpd enc g) s C (enc idx) := updF_other _ _ _ _ hne
          _ = g idx (C (enc idx)) :=
              ih h (fun a ha b hb => hinj a (Nat.lt_succ_of_lt ha) b (Nat.lt_succ_of_lt hb))
      · subst h
        have hmiss : iterLoop (cellUpd enc g) idx C (enc idx) = C (enc idx) := by
          refine cellLoop_miss enc g idx C (enc idx) (fun a ha he => ?_)
          have := hinj idx (Nat.lt_succ_self idx) a (Nat.lt_succ_of_lt ha) he
          omega
        show updF (iterLoop (cellUpd enc g) idx C) (enc idx) _ (enc idx) = _
        rw [updF_same, hmiss]

/-- `foldSum f n = f 0 + f 1 + ⋯ + f (n-1)`, accumulated left to right,
the image of the `gamma += delta` accumulation loops of the kernel. -/
def foldSum {T : Type} [AddCommMonoid T] (f : Nat → T) : Nat → T
  | 0 => 0
  | n + 1 => foldSum f n + f n

theorem foldSum_eq_sum {T : Type} [AddCommMonoid T] (f : Nat → T) (n : Nat) :
    foldSum f n = ∑ l ∈ Finset.range n, f l := by
  induction n with
  | zero => rfl
  | succ n ih => rw [foldSum, ih, Finset.sum_range_succ]

end Elemental

namespace Elemental

/-! ## `El::blas::Gemm` — the portable reference kernel
(src/core/imports/blas/Gemm.hpp, generic template). -/

variable {T : Type}

/-- Column encoder: flat index of local entry `(i, j)` with leading
dimension `ld` is `i + j * ld`. -/
def enc (jld : Nat) (i : Nat) : Nat := i + jld

section Kernel
variable [CommRing T] [StarRing T] [DecidableEq T]

/-- The `C[i+j*CLDim] = 0` double loop of the kernel (`j` outer, `i` inner). -/
def zeroLoop (m CLDim : Nat) (n : Nat) (C : Nat → T) : Nat → T :=
  iterLoop (fun j => iterLoop (cellUpd (enc (j * CLDim)) (fun _ _ => 0)) m) n C

/-- The `C[i+j*CLDim] *= beta` double loop of the kernel. -/
def scaleLoop (beta : T) (m CLDim : Nat) (n : Nat) (C : Nat → T) : Nat → T :=
  iterLoop (fun j => iterLoop (cellUpd (enc (j * CLDim)) (fun _ v => v * beta)) m) n C

/-- The accumulation loop nest of the `N·` kernel branches: for each column
`j` and contraction index `l`, add `addend i j l` into `C[i+j*CLDim]`
(`j` outer, `l` middle, `i` inner, as in the source). -/
def accumNLoop (addend : Nat → Nat → Nat → T) (m k CLDim : Nat) (n : Nat)
    (C : Nat → T) : Nat → T :=
  iterLoop (fun j =>
    iterLoop (fun l =>
      iterLoop (cellUpd (enc (j * CLDim)) (fun i v => v + addend i j l)) m) k) n C

/-- The accumulation loop nest of the transposed kernel branches: for each
`(j, i)` pair add the fully accumulated `addend i j` into `C[i+j*CLDim]`. -/
def accumTLoop (addend : Nat → Nat → T) (m CLDim : Nat) (n : Nat)
    (C : Nat → T) : Nat → T :=
  iterLoop (fun j =>
    iterLoop (cellUpd (enc (j * CLDim)) (fun i v => v + addend i j)) m) n C

namespace blas

/-- `El::blas::Gemm` generic template (Gemm.hpp lines 53-268): the portable
reference GEMM over a ring.  Buffers are total `Nat → T` functions in
column-major layout; the returned buffer is the final state of `C`.  The
branch structure, iteration order and the exact order of the scalar
operations (`gamma = alpha; gamma *= B[...]; delta = A[...]; delta *= gamma;
C[...] += delta;` etc.) follow the source. -/
def Gemm (transA transB : Char) (m n k : Nat) (alpha : T)
    (A : Nat → T) (ALDim : Nat) (B : Nat → T) (BLDim : Nat)
    (beta : T) (C : Nat → T) (CLDim : Nat) : Nat → T :=
  if 0 < m ∧ 0 < n ∧ k = 0 ∧ beta = 0 then
    zeroLoop m CLDim n C
  else
    -- Scale C
    let C1 : Nat → T :=
      if beta = 0 then zeroLoop m CLDim n C
      else if beta ≠ 1 then scaleLoop beta m CLDim n C
      else C
    -- Naive implementation
    if transA.toUpper = 'N' ∧ transB.toUpper = 'N' then
      -- C := alpha A B + C
      accumNLoop (fun i j l => A (i + l * ALDim) * (alpha * B (l + j * BLDim)))
        m k CLDim n C1
    else if transA.toUpper = 'N' then
      if transB.toUpper = 'T' then
        -- C := alpha A B^T + C
        accumNLoop (fun i j l => A (i + l * ALDim) * (alpha * B (j + l * BLDim)))
          m k CLDim n C1
      else
        -- C := alpha A B^H + C
        accumNLoop (fun i j l => A (i + l * ALDim) * (star (B (j + l * BLDim)) * alpha))
          m k CLDim n C1
    else if transB.toUpper = 'N' then
      if transA.toUpper = 'T' then
        -- C := alpha A^T B + C
        accumTLoop (fun i j => foldSum (fun l => A (l + i * ALDim) * B (l + j * BLDim)) k * alpha)
          m CLDim n C1
      else
        -- C := alpha A^H B + C
        accumTLoop (fun i j => foldSum (fun l => star (A (l + i * ALDim)) * B (l + j * BLDim)) k * alpha)
          m CLDim n C1
    else if transA.toUpper = 'T' ∧ transB.toUpper = 'T' then
      -- C := alpha A^T B^T + C
      accumTLoop (fun i j => foldSum (fun l => A (l + i * ALDim) * B (j + l * BLDim)) k * alpha)
        m CLDim n C1
    else if transA.toUpper = 'T' then
      -- C := alpha A^T B^H + C
      accumTLoop (fun i j => foldSum (fun l => star (B (j + l * BLDim)) * A (l + i * ALDim)) k * alpha)
        m CLDim n C1
    else if transB.toUpper = 'T' then
      -- C := alpha A^H B^T + C
      accumTLoop (fun i j => foldSum (fun l => star (A (l + i * ALDim)) * B (j + l * BLDim)) k * alpha)
        m CLDim n C1
    else
      -- C := alpha A^H B^H + C
      accumTLoop (fun i j => foldSum (fun l => star (A (l + i * ALDim)) * star (B (j + l * BLDim))) k * alpha)
        m CLDim n C1

end blas

end Kernel

/-- An orientation character is valid when it is one of N/T/C, case-insensitively. -/
def validTrans (c : Char) : Prop :=
  c.toUpper = 'N' ∨ c.toUpper = 'T' ∨ c.toUpper = 'C'

/-- `op(A)(i, l)` for the flat buffer `A` of leading dimension `ALDim` under
orientation character `tc`: identity for N, transpose for T, conjugate
transpose for C. -/
def opEntry [Star T] (tc : Char) (A : Nat → T) (ALDim : Nat) (i l : Nat) : T :=
  if tc.toUpper = 'N' then A (i + l * ALDim)
  else if tc.toUpper = 'T' then A (l + i * ALDim)
  else star (A (l + i * ALDim))

/-- Distinct column-major cells have distinct flat indices when the leading
dimension bounds the row index. -/
theorem encCross {i i' j j' CLDim : Nat} (hi : i < CLDim) (hi' : i' < CLDim)
    (h : i + j * CLDim = i' + j' * CLDim) : i = i' ∧ j = j' := by
  have hmod : i = i' := by
    have h1 : (i + j * CLDim) % CLDim = i := by
      rw [Nat.add_mul_mod_self_right, Nat.mod_eq_of_lt hi]
    have h2 : (i' + j' * CLDim) % CLDim = i' := by
      rw [Nat.add_mul_mod_self_right, Nat.mod_eq_of_lt hi']
    rw [← h1, ← h2, h]
  refine ⟨hmod, ?_⟩
  subst hmod
  have hpos : 0 < CLDim := Nat.pos_of_ne_zero (by omega)
  have := Nat.add_left_cancel h
  exact Nat.eq_of_mul_eq_mul_right hpos this

/-- A column-partitioned loop nest leaves any cell outside all written
columns unchanged. -/
theorem colNest_miss (bodyF : Nat → (Nat → T) → (Nat → T)) (m CLDim : Nat)
    (hmiss : ∀ j C q, (∀ i < m, q ≠ i + j * CLDim) → bodyF j C q = C q)
    (n : Nat) (C : Nat → T) (q : Nat)
    (hq : ∀ j < n, ∀ i < m, q ≠ i + j * CLDim) :
    iterLoop bodyF n C q = C q := by
  induction n with
  | zero => rfl
  | succ n ih =>
      have hstep : bodyF n (iterLoop bodyF n C) q = iterLoop bodyF n C q :=
        hmiss n _ _ (fun i hi => hq n (Nat.lt_succ_self n) i hi)
      rw [iterLoop, hstep, ih (fun j hj => hq j (Nat.lt_succ_of_lt hj))]

/-- Value of a column-partitioned loop nest at an in-range cell: if every
column body writes only its own column and acts as `F j i` there, the nest
acts as `F j i` at cell `(i, j)`. -/
theorem colNest_at (bodyF : Nat → (Nat → T) → (Nat → T)) (F : Nat → Nat → T → T)
    (m CLDim : Nat)
    (hmiss : ∀ j C q, (∀ i < m, q ≠ i + j * CLDim) → bodyF j C q = C q)
    (hhit : ∀ j (C : Nat → T) i, i < m → bodyF j C (i + j * CLDim) = F j i (C (i + j * CLDim)))
    (hld : m ≤ CLDim) (n : Nat) (C : Nat → T) (i j : Nat) (hi : i < m) (hj : j < n) :
    iterLoop bodyF n C (i + j * CLDim) = F j i (C (i + j * CLDim)) := by
  induction n with
  | zero => omega
  | succ n ih =>
      rcases Nat.lt_succ_iff_lt_or_eq.mp hj with h | h
      · -- the later column `n` does not touch column `j`
        have hstep : bodyF n (iterLoop bodyF n C) (i + j * CLDim)
            = iterLoop bodyF n C (i + j * CLDim) := by
          refine hmiss n _ _ (fun i' hi' he => ?_)
          have := encCross (Nat.lt_of_lt_of_le hi hld) (Nat.lt_of_lt_of_le hi' hld) he
          omega
        rw [iterLoop, hstep, ih h]
      · subst h
        -- earlier columns do not touch column `j`
        have hprev : iterLoop bodyF j C (i + j * CLDim) = C (i + j * CLDim) := by
          refine colNest_miss bodyF m CLDim hmiss j C _ (fun j' hj' i' hi' he => ?_)
          have := encCross (Nat.lt_of_lt_of_le hi hld) (Nat.lt_of_lt_of_le hi' hld) he
          omega
        rw [iterLoop, hhit j _ i hi, hprev]

section KernelLemmas
variable [CommRing T] [StarRing T] [DecidableEq T]

theorem encInj (jld : Nat) : ∀ a, ∀ b, enc jld a = enc jld b → a = b := by
  intro a b h
  simp only [enc] at h
  omega

theorem zeroLoop_at (m CLDim n : Nat) (C : Nat → T) (i j : Nat)
    (hld : m ≤ CLDim) (hi : i < m) (hj : j < n) :
    zeroLoop m CLDim n C (i + j * CLDim) = (0 : T) := by
  refine colNest_at _ (fun _ _ _ => (0 : T)) m CLDim ?_ ?_ hld n C i j hi hj
  · intro j' C' q hq
    exact cellLoop_miss _ _ _ _ _ (fun idx hidx => hq idx hidx)
  · intro j' C' i' hi'
    exact cellLoop_hit (enc (j' * CLDim)) _ m C' i' hi' (fun a _ b _ h => encInj _ a b h)

theorem scaleLoop_at (beta : T) (m CLDim n : Nat) (C : Nat → T) (i j : Nat)
    (hld : m ≤ CLDim) (hi : i < m) (hj : j < n) :
    scaleLoop beta m CLDim n C (i + j * CLDim) = C (i + j * CLDim) * beta := by
  refine colNest_at _ (fun _ _ v => v * beta) m CLDim ?_ ?_ hld n C i j hi hj
  · intro j' C' q hq
    exact cellLoop_miss _ _ _ _ _ (fun idx hidx => hq idx hidx)
  · intro j' C' i' hi'
    exact cellLoop_hit (enc (j' * CLDim)) _ m C' i' hi' (fun a _ b _ h => encInj _ a b h)

theorem accumNColumn_hit (addend : Nat → Nat → Nat → T) (m CLDim : Nat) (j : Nat)
    (k : Nat) (C : Nat → T) (i : Nat) (hi : i < m) :
    iterLoop (fun l => iterLoop (cellUpd (enc (j * CLDim)) (fun i v => v + addend i j l)) m)
        k C (i + j * CLDim)
      = C (i + j * CLDim) + foldSum (fun l => addend i j l) k := by
  induction k with
  | zero => simp [iterLoop, foldSum]
  | succ k ih =>
      have hstep := cellLoop_hit (enc (j * CLDim)) (fun i v => v + addend i j k) m
        (iterLoop (fun l => iterLoop (cellUpd (enc (j * CLDim)) (fun i v => v + addend i j l)) m) k C)
        i hi (fun a _ b _ h => encInj _ a b h)
      rw [iterLoop]
      rw [show enc (j * CLDim) i = i + j * CLDim from rfl] at hstep
      rw [hstep]
      dsimp only
      rw [ih, foldSum, add_assoc]

theorem accumNColumn_miss (addend : Nat → Nat → Nat → T) (m CLDim : Nat) (j : Nat)
    (k : Nat) (C : Nat → T) (q : Nat) (hq : ∀ i < m, q ≠ i + j * CLDim) :
    iterLoop (fun l => iterLoop (cellUpd (enc (j * CLDim)) (fun i v => v + addend i j l)) m)
        k C q = C q := by
  induction k with
  | zero => rfl
  | succ k ih =>
      have hstep := cellLoop_miss (enc (j * CLDim)) (fun i v => v + addend i j k) m
        (iterLoop (fun l => iterLoop (cellUpd (enc (j * CLDim)) (fun i v => v + addend i j l)) m) k C)
        q (fun idx hidx => hq idx hidx)
      rw [iterLoop, hstep, ih]

theorem accumNLoop_at (addend : Nat → Nat → Nat → T) (m k CLDim n : Nat) (C : Nat → T)
    (i j : Nat) (hld : m ≤ CLDim) (hi : i < m) (hj : j < n) :
    accumNLoop addend m k CLDim n C (i + j * CLDim)
      = C (i + j * CLDim) + foldSum (fun l => addend i j l) k := by
  refine colNest_at _ (fun j i v => v + foldSum (fun l => addend i j l) k) m CLDim
    ?_ ?_ hld n C i j hi hj
  · intro j' C' q hq
    exact accumNColumn_miss addend m CLDim j' k C' q hq
  · intro j' C' i' hi'
    exact accumNColumn_hit addend m CLDim j' k C' i' hi'

theorem accumTLoop_at (addend : Nat → Nat → T) (m CLDim n : Nat) (C : Nat → T)
    (i j : Nat) (hld : m ≤ CLDim) (hi : i < m) (hj : j < n) :
    accumTLoop addend m CLDim n C (i + j * CLDim)
      = C (i + j * CLDim) + addend i j := by
  refine colNest_at _ (fun j i v => v + addend i j) m CLDim ?_ ?_ hld n C i j hi hj
  · intro j' C' q hq
    exact cellLoop_miss _ _ _ _ _ (fun idx hidx => hq idx hidx)
  · intro j' C' i' hi'
    exact cellLoop_hit (enc (j' * CLDim)) _ m C' i' hi' (fun a _ b _ h => encInj _ a b h)

/-- The scale phase of the kernel multiplies each in-range entry by `beta`. -/
theorem scalePhase_at (beta : T) (m CLDim n : Nat) (C : Nat → T) (i j : Nat)
    (hld : m ≤ CLDim) (hi : i < m) (hj : j < n) :
    (if beta = 0 then zeroLoop m CLDim n C
     else if beta ≠ 1 then scaleLoop beta m CLDim n C
     else C) (i + j * CLDim) = beta * C (i + j * CLDim) := by
  by_cases h0 : beta = 0
  · rw [if_pos h0, zeroLoop_at m CLDim n C i j hld hi hj, h0, zero_mul]
  · by_cases h1 : beta = 1
    · rw [if_neg h0, h1]
      simp
    · rw [if_neg h0, if_pos h1, scaleLoop_at beta m CLDim n C i j hld hi hj, mul_comm]

/-- The essential correctness property of the portable reference kernel:
each in-range entry of the result is
`alpha * Σ_l op(A)(i,l)·op(B)(l,j) + beta * C_old(i,j)`. -/
theorem blas_Gemm_entry (transA transB : Char)
    (hA : validTrans transA) (hB : validTrans transB)
    (m n k ALDim BLDim CLDim : Nat) (hld : m ≤ CLDim)
    (alpha beta : T) (A B C : Nat → T) (i j : Nat) (hi : i < m) (hj : j < n) :
    blas.Gemm transA transB m n k alpha A ALDim B BLDim beta C CLDim (i + j * CLDim)
      = alpha * (∑ l ∈ Finset.range k,
          opEntry transA A ALDim i l * opEntry transB B BLDim l j)
        + beta * C (i + j * CLDim) := by
  by_cases hshort : 0 < m ∧ 0 < n ∧ k = 0 ∧ beta = 0
  · obtain ⟨hm, hn, hk, hb⟩ := hshort
    subst hk; subst hb
    rw [blas.Gemm, if_pos ⟨hm, hn, rfl, rfl⟩,
      zeroLoop_at m CLDim n C i j hld hi hj]
    simp
  · have hC1 := scalePhase_at beta m CLDim n C i j hld hi hj
    rw [blas.Gemm, if_neg hshort]
    rcases hA with hA | hA | hA <;> rcases hB with hB | hB | hB <;>
      simp only [hA, hB, Char.reduceEq, true_and, and_true, false_and, and_false,
        if_true, if_false, reduceIte] <;>
      (first
        | rw [accumNLoop_at _ m k CLDim n _ i j hld hi hj]
        | rw [accumTLoop_at _ m CLDim n _ i j hld hi hj]) <;>
      rw [hC1, foldSum_eq_sum, add_comm] <;>
      congr 1 <;>
      (first | rw [Finset.sum_mul] | skip) <;>
      rw [Finset.mul_sum] <;>
      exact Finset.sum_congr rfl (fun l _ => by
        simp only [opEntry, hA, hB, Char.reduceEq, reduceIte, if_true, if_false]; ring)

end KernelLemmas

/-- C1: For every pair of orientation characters in {N,T,C} (case-insensitive)
and all m, n, k ≥ 0, the portable reference kernel `blas::Gemm` leaves `C` such
that every in-range entry `C[i+j*CLDim]` equals
`alpha * Σ_{l<k} op(A)(i,l)·op(B)(l,j) + beta * C_old[i+j*CLDim]`, with `op`
the identity for N, transpose for T and conjugate-transpose for C, all
arithmetic being the element ring's operators (`CLDim ≥ m` is the kernel's
documented leading-dimension precondition). -/
theorem C1_blasGemm_correct [CommRing T] [StarRing T] [DecidableEq T]
    (transA transB : Char) (hA : validTrans transA) (hB : validTrans transB)
    (m n k ALDim BLDim CLDim : Nat) (hld : m ≤ CLDim)
    (alpha beta : T) (A B C : Nat → T) (i j : Nat) (hi : i < m) (hj : j < n) :
    blas.Gemm transA transB m n k alpha A ALDim B BLDim beta C CLDim (i + j * CLDim)
      = alpha * (∑ l ∈ Finset.range k,
          opEntry transA A ALDim i l * opEntry transB B BLDim l j)
        + beta * C (i + j * CLDim) :=
  blas_Gemm_entry transA transB hA hB m n k ALDim BLDim CLDim hld alpha beta A B C i j hi hj

/-- Witness for C1 at a concrete input (`transA = 'n'`, `transB = 't'`,
2×2×2 integer data, entry (0,1)). -/
theorem C1_blasGemm_correct_witness :
    blas.Gemm 'n' 't' 2 2 2 (2 : ℤ) (fun q => (q : ℤ) + 1) 2
        (fun q => (q : ℤ) * 2 + 1) 2 3 (fun q => (q : ℤ)) 2 (0 + 1 * 2)
      = 2 * (∑ l ∈ Finset.range 2,
          opEntry 'n' (fun q => (q : ℤ) + 1) 2 0 l *
          opEntry 't' (fun q => (q : ℤ) * 2 + 1) 2 l 1)
        + 3 * (fun q => (q : ℤ)) (0 + 1 * 2) :=
  C1_blasGemm_correct 'n' 't' (Or.inl (by decide)) (Or.inr (Or.inl (by decide)))
    2 2 2 2 2 2 (by decide) 2 3 _ _ _ 0 1 (by decide) (by decide)

end Elemental

namespace Elemental

/-! ## `El::Gemm` — sequential and distributed dispatchers
(src/blas_like/level3/Gemm.cpp). -/

variable {T : Type}

/-- A dense matrix: global height, width, and a total entry function
(entries outside `[0,h)×[0,w)` are phantom and never read by the code). -/
structure Mat (T : Type) where
  h : Nat
  w : Nat
  e : Nat → Nat → T

/-- Column-major flattening of a matrix, with leading dimension `h`
(`Matrix<T>::LockedBuffer()` with `LDim() = Height()`). -/
def Mat.buf (A : Mat T) : Nat → T := fun q => A.e (q % A.h) (q / A.h)

/-- The `Orientation` enumeration of the library. -/
inductive Orientation
  | NORMAL
  | TRANSPOSE
  | ADJOINT
deriving DecidableEq

/-- `El::OrientationToChar`. -/
def OrientationToChar : Orientation → Char
  | .NORMAL => 'N'
  | .TRANSPOSE => 'T'
  | .ADJOINT => 'C'

/-- `C *= beta` on a `Matrix<T>`: every entry is scaled in place. -/
def Mat.scale [Mul T] (beta : T) (C : Mat T) : Mat T :=
  ⟨C.h, C.w, fun i j => C.e i j * beta⟩

section Dispatch
variable [CommRing T] [StarRing T] [DecidableEq T]

/-- The computational core of the sequential `El::Gemm` (Gemm.cpp lines
69-104): after the conformance checks, call the reference kernel when the
contraction dimension `k` is nonzero, otherwise perform the pure scale
`C *= beta`. -/
def gemmCore (orientA orientB : Orientation) (alpha : T) (A B : Mat T)
    (beta : T) (C : Mat T) : Mat T :=
  let transA := OrientationToChar orientA
  let transB := OrientationToChar orientB
  let m := C.h
  let n := C.w
  let k := if orientA = Orientation.NORMAL then A.w else A.h
  if k ≠ 0 then
    let buf := blas.Gemm transA transB m n k alpha A.buf A.h B.buf B.h beta C.buf C.h
    ⟨C.h, C.w, fun i j => if i < C.h ∧ j < C.w then buf (i + j * C.h) else C.e i j⟩
  else
    Mat.scale beta C

/-- The conformance conditions checked by `El::Gemm` (Gemm.cpp lines 41-68),
one triple of dimension equations per orientation pair. -/
def gemmConformal (orientA orientB : Orientation) (A B C : Mat T) : Prop :=
  match orientA, orientB with
  | .NORMAL, .NORMAL => A.h = C.h ∧ B.w = C.w ∧ A.w = B.h
  | .NORMAL, _       => A.h = C.h ∧ B.h = C.w ∧ A.w = B.w
  | _, .NORMAL       => A.w = C.h ∧ B.w = C.w ∧ A.h = B.h
  | _, _             => A.w = C.h ∧ B.h = C.w ∧ A.h = B.w

instance (orientA orientB : Orientation) (A B C : Mat T) :
    Decidable (gemmConformal orientA orientB A B C) := by
  unfold gemmConformal
  cases orientA <;> cases orientB <;> exact inferInstance

/-- The sequential `El::Gemm` over `Matrix<T>` (Gemm.cpp lines 33-105): the
conformance checks run first and throw (`LogicError`) with `C` untouched;
an error therefore carries the unmodified `C`. -/
def gemmSeq (orientA orientB : Orientation) (alpha : T) (A B : Mat T)
    (beta : T) (C : Mat T) : Except (Mat T) (Mat T) :=
  if gemmConformal orientA orientB A B C then
    Except.ok (gemmCore orientA orientB alpha A B beta C)
  else
    Except.error C

/-- Communication issued by a distributed Gemm invocation. -/
inductive CommEvent
  | summa
deriving DecidableEq

/-- The distributed `El::Gemm` over `AbstractDistMatrix<T>` (Gemm.cpp lines
122-151): `C *= beta` is executed first, then the call dispatches to a SUMMA
routine.  The SUMMA routines are not part of the sources; modelled from the
spec: each routine performs the same local conformance check before issuing
any communication, computes `C += alpha op(A) op(B)` on success, and a zero
contraction dimension short-circuits with no communication.  An error
carries the state of `C` at the moment it is raised, and the second
component is the list of communication events issued. -/
def distGemm (orientA orientB : Orientation) (alpha : T) (A B : Mat T)
    (beta : T) (C : Mat T) : Except (Mat T) (Mat T) × List CommEvent :=
  let C1 := Mat.scale beta C
  if gemmConformal orientA orientB A B C then
    let k := if orientA = Orientation.NORMAL then A.w else A.h
    (Except.ok (gemmCore orientA orientB alpha A B 1 C1),
     if k = 0 then [] else [CommEvent.summa])
  else
    (Except.error C1, [])

/-- `Except.isOk` test. -/
def exceptOk : Except (Mat T) (Mat T) → Bool
  | Except.ok _ => true
  | Except.error _ => false

end Dispatch

end Elemental

namespace Elemental

variable {T : Type}

section GemmClaims
variable [CommRing T] [StarRing T] [DecidableEq T]

/-- C3 (amended): both `Gemm` overloads raise a nonconformal-dimensions error
exactly when the operand shapes violate the conformance conditions of the
orientation pair, and always before any communication is issued; the
sequential `Matrix` overload raises before `C` is modified in any way, but
the distributed overload scales `C` by `beta` before dispatching, so its
error is raised only after `C` has been scaled. -/
theorem C3_gemm_conformance (orientA orientB : Orientation) (alpha beta : T)
    (A B C : Mat T) :
    (exceptOk (gemmSeq orientA orientB alpha A B beta C) = false
        ↔ ¬ gemmConformal orientA orientB A B C)
    ∧ (∀ E, gemmSeq orientA orientB alpha A B beta C = Except.error E → E = C)
    ∧ (exceptOk (distGemm orientA orientB alpha A B beta C).1 = false
        ↔ ¬ gemmConformal orientA orientB A B C)
    ∧ (∀ E, (distGemm orientA orientB alpha A B beta C).1 = Except.error E →
        E = Mat.scale beta C ∧ (distGemm orientA orientB alpha A B beta C).2 = []) := by
  by_cases hc : gemmConformal orientA orientB A B C
  · refine ⟨?_, ?_, ?_, ?_⟩
    · rw [gemmSeq, if_pos hc]
      simp [exceptOk, hc]
    · intro E hE
      rw [gemmSeq, if_pos hc] at hE
      exact absurd hE (by simp)
    · rw [distGemm]
      simp [exceptOk, hc]
    · intro E hE
      rw [distGemm] at hE
      simp only [if_pos hc] at hE
      exact absurd hE (by simp)
  · refine ⟨?_, ?_, ?_, ?_⟩
    · rw [gemmSeq, if_neg hc]
      simp [exceptOk, hc]
    · intro E hE
      rw [gemmSeq, if_neg hc] at hE
      exact (Except.error.inj hE).symm
    · rw [distGemm]
      simp [exceptOk, hc]
    · intro E hE
      rw [distGemm] at hE
      simp only [if_neg hc] at hE
      refine ⟨(Except.error.inj hE).symm, ?_⟩
      rw [distGemm]
      simp [hc]

/-- Counterexample to C3 as stated: on a nonconformal `NN` input
(`A, B` 1×1, `C` 1×2, `beta = 2`) the distributed overload raises, but the
`C` it carries at the raise has already been scaled (entry (0,0) is 6, was 3),
so the error is not raised "before C is modified in any way". -/
theorem C3_counterexample :
    (distGemm Orientation.NORMAL Orientation.NORMAL (1 : ℤ)
        (Mat.mk 1 1 (fun _ _ => 1)) (Mat.mk 1 1 (fun _ _ => 1)) 2
        (Mat.mk 1 2 (fun _ _ => 3))).1
      = Except.error (Mat.scale 2 (Mat.mk 1 2 (fun _ _ => 3)))
    ∧ (Mat.scale 2 (Mat.mk 1 2 (fun _ _ => 3))).e 0 0
        ≠ (Mat.mk 1 2 (fun _ _ => 3)).e 0 0
    ∧ ¬ gemmConformal Orientation.NORMAL Orientation.NORMAL
        (Mat.mk 1 1 (fun _ _ => (1 : ℤ))) (Mat.mk 1 1 (fun _ _ => 1))
        (Mat.mk 1 2 (fun _ _ => 3)) := by
  refine ⟨?_, by decide, by decide⟩
  rw [distGemm, if_neg (by decide)]

/-- Witness for C3's amended theorem at a concrete nonconformal input. -/
theorem C3_gemm_conformance_witness :
    (distGemm Orientation.NORMAL Orientation.NORMAL (1 : ℤ)
        (Mat.mk 1 1 (fun _ _ => 1)) (Mat.mk 1 1 (fun _ _ => 1)) 2
        (Mat.mk 2 2 (fun _ _ => 3))).1
      = Except.error (Mat.scale 2 (Mat.mk 2 2 (fun _ _ => 3)))
    ∧ (distGemm Orientation.NORMAL Orientation.NORMAL (1 : ℤ)
        (Mat.mk 1 1 (fun _ _ => 1)) (Mat.mk 1 1 (fun _ _ => 1)) 2
        (Mat.mk 2 2 (fun _ _ => 3))).2 = [] := by
  have h := (C3_gemm_conformance Orientation.NORMAL Orientation.NORMAL (1 : ℤ) 2
    (Mat.mk 1 1 (fun _ _ => 1)) (Mat.mk 1 1 (fun _ _ => 1))
    (Mat.mk 2 2 (fun _ _ => 3))).2.2.2
  have hE : (distGemm Orientation.NORMAL Orientation.NORMAL (1 : ℤ)
      (Mat.mk 1 1 (fun _ _ => 1)) (Mat.mk 1 1 (fun _ _ => 1)) 2
      (Mat.mk 2 2 (fun _ _ => 3))).1
      = Except.error (Mat.scale 2 (Mat.mk 2 2 (fun _ _ => 3))) := by
    rw [distGemm, if_neg (by decide)]
  exact ⟨hE, (h _ hE).2⟩

/-- C5: when the contraction dimension is zero the sequential `Gemm`
performs only `C := beta*C`, independent of the entries of `A` and `B`
(with `beta = 0` every entry becomes exactly zero), and the distributed
`Gemm` with `K = 0` and `beta = 0` produces the zero matrix of the output
shape without issuing any communication. -/
theorem C5_gemm_zero_contraction (orientA orientB : Orientation)
    (alpha beta : T) (A B C : Mat T)
    (hk : (if orientA = Orientation.NORMAL then A.w else A.h) = 0)
    (hc : gemmConformal orientA orientB A B C) :
    gemmSeq orientA orientB alpha A B beta C = Except.ok (Mat.scale beta C)
    ∧ (beta = 0 → ∀ i j, (Mat.scale beta C).e i j = 0)
    ∧ (beta = 0 →
        (distGemm orientA orientB alpha A B beta C).1
            = Except.ok (Mat.scale 1 (Mat.scale beta C))
        ∧ (Mat.scale 1 (Mat.scale beta C)).h = C.h
        ∧ (Mat.scale 1 (Mat.scale beta C)).w = C.w
        ∧ (∀ i j, (Mat.scale 1 (Mat.scale beta C)).e i j = 0)
        ∧ (distGemm orientA orientB alpha A B beta C).2 = []) := by
  have hcore : gemmCore orientA orientB alpha A B beta C = Mat.scale beta C := by
    simp [gemmCore, hk]
  refine ⟨?_, ?_, ?_⟩
  · rw [gemmSeq, if_pos hc, hcore]
  · intro hb i j
    simp [Mat.scale, hb]
  · intro hb
    have hcore1 : gemmCore orientA orientB alpha A B 1 (Mat.scale beta C)
        = Mat.scale 1 (Mat.scale beta C) := by
      simp [gemmCore, hk]
    refine ⟨?_, rfl, rfl, ?_, ?_⟩
    · rw [distGemm, if_pos hc]
      simp [hk, hcore1]
    · intro i j
      simp [Mat.scale, hb]
    · rw [distGemm, if_pos hc]
      simp [hk]

/-- Witness for C5 at a concrete input: `orientA = NORMAL` with a 2×0 `A`,
0×2 `B`, 2×2 `C`, `beta = 0`. -/
theorem C5_gemm_zero_contraction_witness :
    gemmSeq Orientation.NORMAL Orientation.NORMAL (5 : ℤ)
        (Mat.mk 2 0 (fun _ _ => 7)) (Mat.mk 0 2 (fun _ _ => 9)) 0
        (Mat.mk 2 2 (fun i j => (i : ℤ) + j))
      = Except.ok (Mat.scale 0 (Mat.mk 2 2 (fun i j => (i : ℤ) + j)))
    ∧ ((0 : ℤ) = 0 → ∀ i j,
        (Mat.scale (0 : ℤ) (Mat.mk 2 2 (fun i j => (i : ℤ) + j))).e i j = 0)
    ∧ ((0 : ℤ) = 0 →
        (distGemm Orientation.NORMAL Orientation.NORMAL (5 : ℤ)
            (Mat.mk 2 0 (fun _ _ => 7)) (Mat.mk 0 2 (fun _ _ => 9)) 0
            (Mat.mk 2 2 (fun i j => (i : ℤ) + j))).1
          = Except.ok (Mat.scale 1 (Mat.scale 0 (Mat.mk 2 2 (fun i j => (i : ℤ) + j))))
        ∧ (Mat.scale (1 : ℤ) (Mat.scale 0 (Mat.mk 2 2 (fun i j => (i : ℤ) + j)))).h
            = (Mat.mk 2 2 (fun i j => (i : ℤ) + j)).h
        ∧ (Mat.scale (1 : ℤ) (Mat.scale 0 (Mat.mk 2 2 (fun i j => (i : ℤ) + j)))).w
            = (Mat.mk 2 2 (fun i j => (i : ℤ) + j)).w
        ∧ (∀ i j,
            (Mat.scale (1 : ℤ) (Mat.scale 0 (Mat.mk 2 2 (fun i j => (i : ℤ) + j)))).e i j = 0)
        ∧ (distGemm Orientation.NORMAL Orientation.NORMAL (5 : ℤ)
            (Mat.mk 2 0 (fun _ _ => 7)) (Mat.mk 0 2 (fun _ _ => 9)) 0
            (Mat.mk 2 2 (fun i j => (i : ℤ) + j))).2 = []) :=
  C5_gemm_zero_contraction Orientation.NORMAL Orientation.NORMAL 5 0
    (Mat.mk 2 0 (fun _ _ => 7)) (Mat.mk 0 2 (fun _ _ => 9))
    (Mat.mk 2 2 (fun i j => (i : ℤ) + j)) (by decide) (by decide)

end GemmClaims

end Elemental

namespace Elemental

/-! ## `DistMatrix<complex<Z>,VR,Star>` entry accessors
(src/core/DistMatrix/VR_Star.cpp).  Complex entries are modelled as pairs
`(re, im)`, exactly the layout of `std::complex<Z>`. -/

variable {Z : Type}

/-- A `[VR,STAR]`-distributed matrix: global shape, grid size `p`, column
alignment, and per-process local buffers (`localData q iLoc j`). -/
structure VRStar (Z : Type) where
  height : Nat
  width : Nat
  p : Nat
  colAlignment : Nat
  localData : Nat → Nat → Nat → Z × Z

/-- Modelled from the spec: `utilities::Shift(rank, alignment, stride)`
(not under src/) — the first global index along the axis owned by `rank`,
namely `(rank + stride - alignment) % stride`. -/
def vrShift (p colAlignment q : Nat) : Nat := (q + p - colAlignment) % p

/-- The `[VR,STAR]` storage invariant (spec §3): process `q` holds global row
`colShift(q) + iLoc·p` at local row `iLoc`, every column locally. -/
def VRStarInv (M : VRStar Z) (G : Nat → Nat → Z × Z) : Prop :=
  ∀ q < M.p, ∀ iLoc j,
    M.localData q iLoc j = G (vrShift M.p M.colAlignment q + iLoc * M.p) j

/-- Communication event of an entry accessor: a broadcast over the grid's
VR communicator from `root`. -/
inductive VREvent
  | bcast (root : Nat)
deriving DecidableEq

/-- Modelled from the spec: `AssertValidEntry` (declared in the DistMatrix
base header, not under src/) throws when `(i,j)` lies outside
`[0,M)×[0,N)`. -/
def AssertValidEntry (height width : Nat) (i j : Int) : Except String Unit :=
  if 0 ≤ i ∧ i < (height : Int) ∧ 0 ≤ j ∧ j < (width : Int) then Except.ok ()
  else Except.error "Entry is out of bounds of distributed matrix"

/-- `DistMatrix<complex<Z>,VR,Star>::GetReal` (VR_Star.cpp lines 118-144):
bounds assertion, owner-rank resolution, owner-local read of the real part,
broadcast over the VR communicator.  After the broadcast every calling
process returns the owner's value, which is the value modelled here. -/
def GetRealVR (M : VRStar Z) (i j : Int) : Except String (Z × List VREvent) :=
  match AssertValidEntry M.height M.width i j with
  | Except.error e => Except.error e
  | Except.ok _ =>
    let i := i.toNat
    let j := j.toNat
    let ownerRank := (i + M.colAlignment) % M.p
    let iLoc := (i - vrShift M.p M.colAlignment ownerRank) / M.p
    Except.ok ((M.localData ownerRank iLoc j).1, [VREvent.bcast ownerRank])

/-- `DistMatrix<complex<Z>,VR,Star>::GetImag` (VR_Star.cpp lines 146-172). -/
def GetImagVR (M : VRStar Z) (i j : Int) : Except String (Z × List VREvent) :=
  match AssertValidEntry M.height M.width i j with
  | Except.error e => Except.error e
  | Except.ok _ =>
    let i := i.toNat
    let j := j.toNat
    let ownerRank := (i + M.colAlignment) % M.p
    let iLoc := (i - vrShift M.p M.colAlignment ownerRank) / M.p
    Except.ok ((M.localData ownerRank iLoc j).2, [VREvent.bcast ownerRank])

/-- The state mutation of `SetReal`: only the owner of global row `i`
overwrites the real part of its local cell `(iLoc, j)`, keeping the old
imaginary part (`const Z v = imag(GetLocalEntry(iLoc,j));
SetLocalEntry(iLoc,j,complex<Z>(u,v));`). -/
def setRealState (M : VRStar Z) (i j : Nat) (u : Z) : VRStar Z :=
  let ownerRank := (i + M.colAlignment) % M.p
  let iOwn := (i - vrShift M.p M.colAlignment ownerRank) / M.p
  { M with localData := fun q =>
      if q = ownerRank then
        fun iLoc j' =>
          if iLoc = iOwn ∧ j' = j then (u, (M.localData q iLoc j').2)
          else M.localData q iLoc j'
      else M.localData q }

/-- The state mutation of `SetImag`, symmetric to `setRealState`. -/
def setImagState (M : VRStar Z) (i j : Nat) (v : Z) : VRStar Z :=
  let ownerRank := (i + M.colAlignment) % M.p
  let iOwn := (i - vrShift M.p M.colAlignment ownerRank) / M.p
  { M with localData := fun q =>
      if q = ownerRank then
        fun iLoc j' =>
          if iLoc = iOwn ∧ j' = j then ((M.localData q iLoc j').1, v)
          else M.localData q iLoc j'
      else M.localData q }

/-- `DistMatrix<complex<Z>,VR,Star>::SetReal` (VR_Star.cpp lines 174-195):
bounds assertion, then only the owner process overwrites the real part of
its local cell, keeping the old imaginary part; no communication. -/
def SetRealVR (M : VRStar Z) (i j : Int) (u : Z) :
    Except String (VRStar Z × List VREvent) :=
  match AssertValidEntry M.height M.width i j with
  | Except.error e => Except.error e
  | Except.ok _ => Except.ok (setRealState M i.toNat j.toNat u, [])

/-- `DistMatrix<complex<Z>,VR,Star>::SetImag` (VR_Star.cpp lines 197-218). -/
def SetImagVR (M : VRStar Z) (i j : Int) (v : Z) :
    Except String (VRStar Z × List VREvent) :=
  match AssertValidEntry M.height M.width i j with
  | Except.error e => Except.error e
  | Except.ok _ => Except.ok (setImagState M i.toNat j.toNat v, [])

/-- Owner arithmetic of the `[VR,STAR]` distribution: the owner rank of
global row `i` is `(i + align) % p`, its column shift is `i % p`, and its
local row for `i` is `i / p`. -/
theorem vrOwner_arith (p a i : Nat) (hp : 0 < p) (ha : a < p) :
    vrShift p a ((i + a) % p) = i % p
    ∧ (i - vrShift p a ((i + a) % p)) / p = i / p := by
  have hsh : vrShift p a ((i + a) % p) = i % p := by
    unfold vrShift
    have h1 : (i + a) % p + p - a = (i + a) % p + (p - a) := by omega
    rw [h1, Nat.mod_add_mod]
    have h2 : i + a + (p - a) = i + p := by omega
    rw [h2, Nat.add_mod_right]
  refine ⟨hsh, ?_⟩
  rw [hsh]
  have h3 : i - i % p = p * (i / p) := by
    have := Nat.div_add_mod i p
    omega
  rw [h3, Nat.mul_div_cancel_left _ hp]

end Elemental

namespace Elemental

variable {Z : Type}

/-- C7: for a `[VR,STAR]` complex matrix and every in-bounds `(i,j)`,
`GetReal` (and `GetImag`) resolves the unique owner `(i + colAlignment) % p`,
the owner reads local entry `((i - colShift)/p, j)`, and after the broadcast
over the VR communicator every calling process returns the real
(resp. imaginary) part of global entry `(i,j)`. -/
theorem C7_vrstar_get (M : VRStar Z) (G : Nat → Nat → Z × Z)
    (hp : 0 < M.p) (ha : M.colAlignment < M.p) (hinv : VRStarInv M G)
    (i j : Nat) (hi : i < M.height) (hj : j < M.width) :
    GetRealVR M (i : Int) (j : Int)
      = Except.ok ((G i j).1, [VREvent.bcast ((i + M.colAlignment) % M.p)])
    ∧ GetImagVR M (i : Int) (j : Int)
      = Except.ok ((G i j).2, [VREvent.bcast ((i + M.colAlignment) % M.p)]) := by
  have hok : AssertValidEntry M.height M.width (i : Int) (j : Int) = Except.ok () := by
    rw [AssertValidEntry, if_pos]
    exact ⟨Int.natCast_nonneg i, by exact_mod_cast hi, Int.natCast_nonneg j,
      by exact_mod_cast hj⟩
  have howner : (i + M.colAlignment) % M.p < M.p := Nat.mod_lt _ hp
  have harith := vrOwner_arith M.p M.colAlignment i hp ha
  have hentry : M.localData ((i + M.colAlignment) % M.p)
      ((i - vrShift M.p M.colAlignment ((i + M.colAlignment) % M.p)) / M.p) j
      = G i j := by
    rw [hinv _ howner, harith.2, harith.1, Nat.mod_add_div']
  constructor
  · rw [GetRealVR, hok]
    simp only [Int.toNat_natCast]
    rw [hentry]
  · rw [GetImagVR, hok]
    simp only [Int.toNat_natCast]
    rw [hentry]

/-- Witness for C7: a 4-row vector on a 2-process grid with alignment 1. -/
theorem C7_vrstar_get_witness :
    GetRealVR (VRStar.mk 4 1 2 1
        (fun q iLoc j => ((vrShift 2 1 q + iLoc * 2 : Nat) * 10 + j, 5)))
        (3 : Int) (0 : Int)
      = Except.ok ((30 : Nat), [VREvent.bcast ((3 + 1) % 2)])
    ∧ GetImagVR (VRStar.mk 4 1 2 1
        (fun q iLoc j => ((vrShift 2 1 q + iLoc * 2 : Nat) * 10 + j, 5)))
        (3 : Int) (0 : Int)
      = Except.ok ((5 : Nat), [VREvent.bcast ((3 + 1) % 2)]) :=
  C7_vrstar_get
    (VRStar.mk 4 1 2 1 (fun q iLoc j => ((vrShift 2 1 q + iLoc * 2 : Nat) * 10 + j, 5)))
    (fun i j => (i * 10 + j, 5)) (by decide) (by decide)
    (fun q _ iLoc j => rfl) 3 0 (by decide) (by decide)

/-- C8: for a `[VR,STAR]` complex matrix and in-bounds `(i,j)`,
`SetReal(i,j,u)` mutates only the owner process's single cell, replacing its
real part and keeping its imaginary part; all other local data on every
process is unchanged, the matrix metadata is unchanged, and no communication
is performed (`SetImag` symmetric). -/
theorem C8_vrstar_set_frame (M : VRStar Z) (i j : Nat) (u v : Z)
    (hi : i < M.height) (hj : j < M.width) :
    SetRealVR M (i : Int) (j : Int) u = Except.ok (setRealState M i j u, [])
    ∧ SetImagVR M (i : Int) (j : Int) v = Except.ok (setImagState M i j v, [])
    ∧ (∀ q, q ≠ (i + M.colAlignment) % M.p →
        (setRealState M i j u).localData q = M.localData q
        ∧ (setImagState M i j v).localData q = M.localData q)
    ∧ ((setRealState M i j u).localData ((i + M.colAlignment) % M.p)
          ((i - vrShift M.p M.colAlignment ((i + M.colAlignment) % M.p)) / M.p) j
        = (u, (M.localData ((i + M.colAlignment) % M.p)
            ((i - vrShift M.p M.colAlignment ((i + M.colAlignment) % M.p)) / M.p) j).2))
    ∧ ((setImagState M i j v).localData ((i + M.colAlignment) % M.p)
          ((i - vrShift M.p M.colAlignment ((i + M.colAlignment) % M.p)) / M.p) j
        = ((M.localData ((i + M.colAlignment) % M.p)
            ((i - vrShift M.p M.colAlignment ((i + M.colAlignment) % M.p)) / M.p) j).1, v))
    ∧ (∀ iLoc j', ¬(iLoc = (i - vrShift M.p M.colAlignment ((i + M.colAlignment) % M.p)) / M.p
            ∧ j' = j) →
        (setRealState M i j u).localData ((i + M.colAlignment) % M.p) iLoc j'
            = M.localData ((i + M.colAlignment) % M.p) iLoc j'
        ∧ (setImagState M i j v).localData ((i + M.colAlignment) % M.p) iLoc j'
            = M.localData ((i + M.colAlignment) % M.p) iLoc j')
    ∧ (setRealState M i j u).height = M.height
    ∧ (setRealState M i j u).width = M.width
    ∧ (setRealState M i j u).p = M.p
    ∧ (setRealState M i j u).colAlignment = M.colAlignment := by
  have hok : AssertValidEntry M.height M.width (i : Int) (j : Int) = Except.ok () := by
    rw [AssertValidEntry, if_pos]
    exact ⟨Int.natCast_nonneg i, by exact_mod_cast hi, Int.natCast_nonneg j,
      by exact_mod_cast hj⟩
  refine ⟨?_, ?_, ?_, ?_, ?_, ?_, rfl, rfl, rfl, rfl⟩
  · rw [SetRealVR, hok]
    simp only [Int.toNat_natCast]
  · rw [SetImagVR, hok]
    simp only [Int.toNat_natCast]
  · intro q hq
    constructor <;> simp [setRealState, setImagState, hq]
  · simp [setRealState]
  · simp [setImagState]
  · intro iLoc j' hne
    constructor <;> simp [setRealState, setImagState, hne]

/-- Concrete `[VR,STAR]` matrix used by the C8 witness. -/
def c8M : VRStar Nat := VRStar.mk 4 2 2 0 (fun _ _ _ => (1, 2))

/-- Witness for C8 at a concrete in-bounds input (`i = 3`, `j = 1`). -/
theorem C8_vrstar_set_frame_witness :
    SetRealVR c8M (3 : Int) (1 : Int) 9 = Except.ok (setRealState c8M 3 1 9, [])
    ∧ SetImagVR c8M (3 : Int) (1 : Int) 8 = Except.ok (setImagState c8M 3 1 8, [])
    ∧ (∀ q, q ≠ (3 + c8M.colAlignment) % c8M.p →
        (setRealState c8M 3 1 9).localData q = c8M.localData q
        ∧ (setImagState c8M 3 1 8).localData q = c8M.localData q)
    ∧ ((setRealState c8M 3 1 9).localData ((3 + c8M.colAlignment) % c8M.p)
          ((3 - vrShift c8M.p c8M.colAlignment ((3 + c8M.colAlignment) % c8M.p)) / c8M.p) 1
        = (9, (c8M.localData ((3 + c8M.colAlignment) % c8M.p)
            ((3 - vrShift c8M.p c8M.colAlignment ((3 + c8M.colAlignment) % c8M.p)) / c8M.p) 1).2))
    ∧ ((setImagState c8M 3 1 8).localData ((3 + c8M.colAlignment) % c8M.p)
          ((3 - vrShift c8M.p c8M.colAlignment ((3 + c8M.colAlignment) % c8M.p)) / c8M.p) 1
        = ((c8M.localData ((3 + c8M.colAlignment) % c8M.p)
            ((3 - vrShift c8M.p c8M.colAlignment ((3 + c8M.colAlignment) % c8M.p)) / c8M.p) 1).1, 8))
    ∧ (∀ iLoc j', ¬(iLoc = (3 - vrShift c8M.p c8M.colAlignment ((3 + c8M.colAlignment) % c8M.p)) / c8M.p
            ∧ j' = 1) →
        (setRealState c8M 3 1 9).localData ((3 + c8M.colAlignment) % c8M.p) iLoc j'
            = c8M.localData ((3 + c8M.colAlignment) % c8M.p) iLoc j'
        ∧ (setImagState c8M 3 1 8).localData ((3 + c8M.colAlignment) % c8M.p) iLoc j'
            = c8M.localData ((3 + c8M.colAlignment) % c8M.p) iLoc j')
    ∧ (setRealState c8M 3 1 9).height = c8M.height
    ∧ (setRealState c8M 3 1 9).width = c8M.width
    ∧ (setRealState c8M 3 1 9).p = c8M.p
    ∧ (setRealState c8M 3 1 9).colAlignment = c8M.colAlignment :=
  C8_vrstar_set_frame c8M 3 1 9 8 (by decide) (by decide)

/-- C9: an entry accessor called at `(i,j)` outside `[0,M)×[0,N)` raises an
error; the error value carries no state and no communication events, so it is
detected before any communication and before any matrix state is modified. -/
theorem C9_vrstar_bounds (M : VRStar Z) (i j : Int) (u v : Z)
    (hout : ¬(0 ≤ i ∧ i < (M.height : Int) ∧ 0 ≤ j ∧ j < (M.width : Int))) :
    GetRealVR M i j
        = Except.error "Entry is out of bounds of distributed matrix"
    ∧ GetImagVR M i j
        = Except.error "Entry is out of bounds of distributed matrix"
    ∧ SetRealVR M i j u
        = Except.error "Entry is out of bounds of distributed matrix"
    ∧ SetImagVR M i j v
        = Except.error "Entry is out of bounds of distributed matrix" := by
  have herr : AssertValidEntry M.height M.width i j
      = Except.error "Entry is out of bounds of distributed matrix" := by
    rw [AssertValidEntry, if_neg hout]
  exact ⟨by rw [GetRealVR, herr], by rw [GetImagVR, herr],
    by rw [SetRealVR, herr], by rw [SetImagVR, herr]⟩

/-- Witness for C9 at `(i,j) = (-1, 0)` on a 2×2 matrix. -/
theorem C9_vrstar_bounds_witness :
    GetRealVR (VRStar.mk 2 2 1 0 (fun _ _ _ => ((0 : Nat), 0))) (-1 : Int) 0
        = Except.error "Entry is out of bounds of distributed matrix"
    ∧ GetImagVR (VRStar.mk 2 2 1 0 (fun _ _ _ => ((0 : Nat), 0))) (-1 : Int) 0
        = Except.error "Entry is out of bounds of distributed matrix"
    ∧ SetRealVR (VRStar.mk 2 2 1 0 (fun _ _ _ => ((0 : Nat), 0))) (-1 : Int) 0 7
        = Except.error "Entry is out of bounds of distributed matrix"
    ∧ SetImagVR (VRStar.mk 2 2 1 0 (fun _ _ _ => ((0 : Nat), 0))) (-1 : Int) 0 7
        = Except.error "Entry is out of bounds of distributed matrix" :=
  C9_vrstar_bounds (VRStar.mk 2 2 1 0 (fun _ _ _ => ((0 : Nat), 0))) (-1) 0 7 7
    (by decide)

end Elemental

namespace Elemental

/-! ## `blas::internal::Dot` with `y` distributed `[MC,MR]`
(src/blas/level1/Dot/Dot.cpp lines 85-173): the sequence of collective
calls issued by each process of an `r × c` grid.  A process is identified by
its grid coordinates `(row, col)`; `MCRank() = row`, `MRRank() = col`; the
MC communicator of a process is the column communicator shared by the
processes of its grid column and the MR communicator is its row
communicator. -/

/-- A collective operation appearing in `internal::Dot`. -/
inductive MpiOp
  | redistAssign
  | allReduceSum
  | bcast (root : Nat)
deriving DecidableEq

/-- The communicator a collective is issued on. -/
inductive Scope
  | grid
  | mcCol (col : Nat)
  | mrRow (row : Nat)
deriving DecidableEq

/-- One collective call: operation and communicator. -/
structure DotEv where
  op : MpiOp
  scope : Scope
deriving DecidableEq

/-- The sequence of collective calls process `(row, col)` issues during
`blas::internal::Dot(x, y)` with `y` of distribution `[MC,MR]`, as a
function of the global vector shapes and of `y`'s alignments.  The
redistribution assignment `xRedist = x` is a collective over the whole grid
executed unconditionally; the `AllReduce` is issued on the process's column
(MC) or row (MR) communicator only under the owner test of the source; the
final `Broadcast` is issued by every process. -/
def dotTrace (xWidth yWidth yColAlign yRowAlign : Nat) (row col : Nat) :
    List DotEv :=
  if xWidth = 1 ∧ yWidth = 1 then
    [⟨MpiOp.redistAssign, Scope.grid⟩]
      ++ (if col = yRowAlign then [⟨MpiOp.allReduceSum, Scope.mcCol col⟩] else [])
      ++ [⟨MpiOp.bcast yRowAlign, Scope.mrRow row⟩]
  else if xWidth = 1 then
    [⟨MpiOp.redistAssign, Scope.grid⟩]
      ++ (if row = yColAlign then [⟨MpiOp.allReduceSum, Scope.mrRow row⟩] else [])
      ++ [⟨MpiOp.bcast yColAlign, Scope.mcCol col⟩]
  else if yWidth = 1 then
    [⟨MpiOp.redistAssign, Scope.grid⟩]
      ++ (if col = yRowAlign then [⟨MpiOp.allReduceSum, Scope.mcCol col⟩] else [])
      ++ [⟨MpiOp.bcast yRowAlign, Scope.mrRow row⟩]
  else
    [⟨MpiOp.redistAssign, Scope.grid⟩]
      ++ (if row = yColAlign then [⟨MpiOp.allReduceSum, Scope.mrRow row⟩] else [])
      ++ [⟨MpiOp.bcast yColAlign, Scope.mcCol col⟩]

/-- The sub-trace of calls process `(row, col)` issues on a communicator. -/
def scopeTrace (xWidth yWidth yColAlign yRowAlign : Nat) (row col : Nat)
    (s : Scope) : List DotEv :=
  (dotTrace xWidth yWidth yColAlign yRowAlign row col).filter
    (fun ev => decide (ev.scope = s))

/-- C6: every process of a given communicator issues the same sequence of
collective calls on that communicator regardless of its local data: the
redistribution assignment is executed unconditionally by all processes; any
two processes of one column (MC) communicator issue identical MC sub-traces
and any two processes of one row (MR) communicator issue identical MR
sub-traces; and in the column-vector case the AllReduce on the MC
communicator is issued by a process iff its column is the owner column,
while the final Broadcast on the MR communicator is issued by every
process. -/
theorem C6_dot_collective_uniformity
    (xWidth yWidth yColAlign yRowAlign : Nat) :
    (∀ row col row' col', col = col' →
        scopeTrace xWidth yWidth yColAlign yRowAlign row col (Scope.mcCol col)
          = scopeTrace xWidth yWidth yColAlign yRowAlign row' col' (Scope.mcCol col))
    ∧ (∀ row col row' col', row = row' →
        scopeTrace xWidth yWidth yColAlign yRowAlign row col (Scope.mrRow row)
          = scopeTrace xWidth yWidth yColAlign yRowAlign row' col' (Scope.mrRow row))
    ∧ (∀ row col,
        scopeTrace xWidth yWidth yColAlign yRowAlign row col Scope.grid
          = [⟨MpiOp.redistAssign, Scope.grid⟩])
    ∧ (xWidth = 1 → yWidth = 1 → ∀ row col,
        (DotEv.mk MpiOp.allReduceSum (Scope.mcCol col)
            ∈ dotTrace xWidth yWidth yColAlign yRowAlign row col
          ↔ col = yRowAlign)
        ∧ DotEv.mk (MpiOp.bcast yRowAlign) (Scope.mrRow row)
            ∈ dotTrace xWidth yWidth yColAlign yRowAlign row col) := by
  refine ⟨?_, ?_, ?_, ?_⟩
  · intro row col row' col' hcc
    subst hcc
    unfold scopeTrace dotTrace
    split_ifs with h1 h2 h3 <;>
      by_cases hc : col = yRowAlign <;>
      by_cases hr : row = yColAlign <;>
      by_cases hr' : row' = yColAlign <;>
      simp [hc, hr, hr', List.filter]
  · intro row col row' col' hrr
    subst hrr
    unfold scopeTrace dotTrace
    split_ifs with h1 h2 h3 <;>
      by_cases hr : row = yColAlign <;>
      by_cases hc : col = yRowAlign <;>
      by_cases hc' : col' = yRowAlign <;>
      simp [hr, hc, hc', List.filter]
  · intro row col
    unfold scopeTrace dotTrace
    split_ifs with h1 h2 h3 <;>
      by_cases hc : col = yRowAlign <;>
      by_cases hr : row = yColAlign <;>
      simp [hc, hr, List.filter]
  · intro hx hy row col
    subst hx
    unfold dotTrace
    rw [if_pos ⟨rfl, hy⟩]
    by_cases hc : col = yRowAlign <;> simp [hc]

/-- Witness for C6's owner-column clause at a concrete configuration. -/
theorem C6_dot_collective_uniformity_witness :
    (DotEv.mk MpiOp.allReduceSum (Scope.mcCol 1) ∈ dotTrace 1 1 0 1 0 1 ↔ (1 : Nat) = 1)
    ∧ DotEv.mk (MpiOp.bcast 1) (Scope.mrRow 0) ∈ dotTrace 1 1 0 1 0 1 :=
  (C6_dot_collective_uniformity 1 1 0 1).2.2.2 rfl rfl 0 1

end Elemental

namespace Elemental

/-! ## Redistribution engine (spec §4.3).
The redistribution engine itself is not among the provided sources; the
model below is built from the spec's description of distributions and of
the redistribution contract. -/

variable {T : Type}

/-- Modelled from the spec: a distribution over `nprocs` processes materia-
lises the spec's invariant that "every global (i,j) maps to exactly one
(owning rank, local row, local col) triple", with `gidx q l` the global
index stored in process `q`'s local cell `l` (replication makes `gidx`
non-injective; `owner`/`loc` single out the designated owning copy). -/
structure Distribution where
  nprocs : Nat
  owner : Nat × Nat → Nat
  loc : Nat × Nat → Nat × Nat
  gidx : Nat → Nat × Nat → Nat × Nat
  owner_lt : ∀ g, owner g < nprocs
  gidx_loc : ∀ g, gidx (owner g) (loc g) = g

/-- The per-process local buffers of a distributed matrix. -/
def LocalState (T : Type) : Type := Nat → Nat × Nat → T

/-- A state is consistent with a distribution when replicated copies of the
same global entry agree (the spec's intentional-replication invariant). -/
def Consistent (D : Distribution) (st : LocalState T) : Prop :=
  ∀ q l q' l', D.gidx q l = D.gidx q' l' → st q l = st q' l'

/-- The global value of entry `g`, read from its designated owner. -/
def globalValue (D : Distribution) (st : LocalState T) (g : Nat × Nat) : T :=
  st (D.owner g) (D.loc g)

/-- Modelled from the spec: a redistribution from `D1` to `D2` is a pure
relayout — the target's local buffer holds, in each local cell, the global
value of the entry that `D2` assigns to that cell, with all values taken
from the `D1` source. -/
def redistribute (D1 D2 : Distribution) (st : LocalState T) : LocalState T :=
  fun q l => globalValue D1 st (D2.gidx q l)

/-- C4: redistributing a consistent matrix from `D1` to `D2` and back to
`D1` reproduces the original local buffer of every process exactly; each
single redistribution preserves the value of every global entry; and
repeating the same redistribution from the same source reproduces the same
local buffer. -/
theorem C4_redistribution_roundtrip (D1 D2 : Distribution) (st : LocalState T)
    (hc : Consistent D1 st) :
    (∀ q l, redistribute D2 D1 (redistribute D1 D2 st) q l = st q l)
    ∧ (∀ g, globalValue D2 (redistribute D1 D2 st) g = globalValue D1 st g)
    ∧ (∀ q l, redistribute D1 D2 st q l = redistribute D1 D2 st q l) := by
  have hpres : ∀ g, globalValue D2 (redistribute D1 D2 st) g = globalValue D1 st g := by
    intro g
    unfold globalValue redistribute globalValue
    rw [D2.gidx_loc g]
  refine ⟨?_, hpres, fun q l => rfl⟩
  intro q l
  show globalValue D2 (redistribute D1 D2 st) (D1.gidx q l) = st q l
  rw [hpres (D1.gidx q l)]
  exact hc _ _ q l (D1.gidx_loc (D1.gidx q l))

/-- Row-cyclic distribution of an `n×1` vector over two processes, used by
the C4 witness. -/
def c4Cyclic : Distribution where
  nprocs := 2
  owner := fun g => g.1 % 2
  loc := fun g => (g.1 / 2, g.2)
  gidx := fun q l => (q % 2 + 2 * l.1, l.2)
  owner_lt := fun g => Nat.mod_lt _ (by omega)
  gidx_loc := fun g => by
    obtain ⟨a, b⟩ := g
    simp only [Prod.mk.injEq, and_true]
    omega

/-- Single-owner (CIRC-like) distribution over the same two processes. -/
def c4Circ : Distribution where
  nprocs := 2
  owner := fun _ => 0
  loc := fun g => g
  gidx := fun _ l => l
  owner_lt := fun _ => Nat.zero_lt_two
  gidx_loc := fun _ => rfl

/-- A concrete `c4Cyclic`-consistent state: local cell values are a function
of the global index stored there. -/
def c4St : LocalState Nat := fun q l => (q % 2 + 2 * l.1) * 10 + l.2

/-- Witness for C4 with the cyclic and single-owner distributions. -/
theorem C4_redistribution_roundtrip_witness :
    (∀ q l, redistribute c4Circ c4Cyclic (redistribute c4Cyclic c4Circ c4St) q l = c4St q l)
    ∧ (∀ g, globalValue c4Circ (redistribute c4Cyclic c4Circ c4St) g
        = globalValue c4Cyclic c4St g)
    ∧ (∀ q l, redistribute c4Cyclic c4Circ c4St q l
        = redistribute c4Cyclic c4Circ c4St q l) :=
  C4_redistribution_roundtrip c4Cyclic c4Circ c4St
    (fun q l q' l' h => by
      have h1 := congrArg Prod.fst h
      have h2 := congrArg Prod.snd h
      simp only [c4Cyclic] at h1 h2
      simp only [c4St]
      rw [show q % 2 + 2 * l.1 = q' % 2 + 2 * l'.1 from h1, show l.2 = l'.2 from h2])

end Elemental

namespace Elemental

/-! ## `LocalTrr2k` (src/blas_like/level3/Trr2k/Local.hpp).
The distributed operands are modelled by their global matrices; the
`Gemm` calls on the partitioned local views are in-place updates of the
corresponding blocks of `E`, modelled by `applyToBlock`.  The source's
`El::Gemm` conformance checks pass on every call made here (the claim's
conformality hypotheses), so the calls are embedded by `gemmCore`. -/

variable {T : Type}

/-- A non-owning view: the `h × w` submatrix of `A` at offset `(r0, c0)`. -/
def Mat.sub (A : Mat T) (r0 c0 h w : Nat) : Mat T :=
  ⟨h, w, fun i j => A.e (r0 + i) (c0 + j)⟩

/-- Write the image of block `(r0, c0, h, w)` under `f` back into `E`
(the functional rendering of calling an in-place routine on a view). -/
def applyToBlock (E : Mat T) (r0 c0 h w : Nat) (f : Mat T → Mat T) : Mat T :=
  ⟨E.h, E.w, fun i j =>
    if r0 ≤ i ∧ i < r0 + h ∧ c0 ≤ j ∧ j < c0 + w then
      (f (E.sub r0 c0 h w)).e (i - r0) (j - c0)
    else E.e i j⟩

/-- The `UpperOrLower` enumeration. -/
inductive UpperOrLower
  | LOWER
  | UPPER
deriving DecidableEq

/-- Membership of `(i,j)` in the stored triangle (diagonal included). -/
def inTri (uplo : UpperOrLower) (i j : Nat) : Bool :=
  match uplo with
  | .LOWER => decide (j ≤ i)
  | .UPPER => decide (i ≤ j)

/-- Modelled from the spec: `ScaleTrapezoid(gamma, uplo, E)` (not under
src/) scales the entries of the requested trapezoid, diagonal included, in
place. -/
def ScaleTrapezoid [Mul T] (gamma : T) (uplo : UpperOrLower) (E : Mat T) : Mat T :=
  ⟨E.h, E.w, fun i j => if inTri uplo i j then gamma * E.e i j else E.e i j⟩

/-- Modelled from the spec: `AxpyTriangle(uplo, alpha, X, Y)` (not under
src/) adds `alpha * X` into the requested triangle of `Y`, diagonal
included. -/
def AxpyTriangle [Mul T] [Add T] (uplo : UpperOrLower) (alpha : T)
    (X Y : Mat T) : Mat T :=
  ⟨Y.h, Y.w, fun i j => if inTri uplo i j then Y.e i j + alpha * X.e i j
    else Y.e i j⟩

/-- The `0` part of the partition applied to `A`/`C`-type operands:
`PartitionRight` when transposed, `PartitionDown` otherwise. -/
def partA0 (o : Orientation) (A : Mat T) (half : Nat) : Mat T :=
  if o ≠ Orientation.NORMAL then A.sub 0 0 A.h half else A.sub 0 0 half A.w

/-- The `1` part of the partition applied to `A`/`C`-type operands. -/
def partA1 (o : Orientation) (A : Mat T) (half : Nat) : Mat T :=
  if o ≠ Orientation.NORMAL then A.sub 0 half A.h (A.w - half)
  else A.sub half 0 (A.h - half) A.w

/-- The `0` part of the partition applied to `B`/`D`-type operands:
`PartitionDown` when transposed, `PartitionRight` otherwise. -/
def partB0 (o : Orientation) (B : Mat T) (half : Nat) : Mat T :=
  if o ≠ Orientation.NORMAL then B.sub 0 0 half B.w else B.sub 0 0 B.h half

/-- The `1` part of the partition applied to `B`/`D`-type operands. -/
def partB1 (o : Orientation) (B : Mat T) (half : Nat) : Mat T :=
  if o ≠ Orientation.NORMAL then B.sub half 0 (B.h - half) B.w
  else B.sub 0 half B.h (B.w - half)

section Trr2k
variable [CommRing T] [StarRing T] [DecidableEq T]

/-- The diagonal-block work matrix (`FTL`/`FBR`): freshly resized to
`h × w` (initial contents never read since the first `Gemm` has `beta = 0`),
then `F := alpha op(A*) op(B*)` and `F := beta op(C*) op(D*) + F`. -/
def diagF (orientA orientB orientC orientD : Orientation)
    (alpha : T) (A0 B0 : Mat T) (beta : T) (C0 D0 : Mat T) (h w : Nat) : Mat T :=
  gemmCore orientC orientD beta C0 D0 1
    (gemmCore orientA orientB alpha A0 B0 0 (Mat.mk h w (fun _ _ => 0)))

/-- `trr2k::LocalTrr2kKernel` (Local.hpp lines 17-118): scale the requested
trapezoid of `E` by `gamma`, update the off-diagonal block of the requested
triangle with two dense Gemm accumulations, and update the triangles of the
two diagonal blocks through freshly allocated `FTL`/`FBR` work matrices
(whose first `Gemm` uses `beta = 0`, so their initial contents — zeros here
— are never read). -/
def LocalTrr2kKernel (uplo : UpperOrLower)
    (orientA orientB orientC orientD : Orientation)
    (alpha : T) (A B : Mat T) (beta : T) (C D : Mat T) (gamma : T)
    (E : Mat T) : Mat T :=
  let half := E.h / 2
  let E1 := ScaleTrapezoid gamma uplo E
  let E2 :=
    if uplo = UpperOrLower.LOWER then
      applyToBlock E1 half 0 (E.h - half) half (fun ebl =>
        gemmCore orientC orientD beta (partA1 orientC C half) (partB0 orientD D half) 1
          (gemmCore orientA orientB alpha (partA1 orientA A half) (partB0 orientB B half) 1 ebl))
    else
      applyToBlock E1 0 half half (E.w - half) (fun etr =>
        gemmCore orientC orientD beta (partA0 orientC C half) (partB1 orientD D half) 1
          (gemmCore orientA orientB alpha (partA0 orientA A half) (partB1 orientB B half) 1 etr))
  let FTL := diagF orientA orientB orientC orientD
    alpha (partA0 orientA A half) (partB0 orientB B half)
    beta (partA0 orientC C half) (partB0 orientD D half) half half
  let E3 := applyToBlock E2 0 0 half half (fun etl => AxpyTriangle uplo 1 FTL etl)
  let FBR := diagF orientA orientB orientC orientD
    alpha (partA1 orientA A half) (partB1 orientB B half)
    beta (partA1 orientC C half) (partB1 orientD D half) (E.h - half) (E.w - half)
  applyToBlock E3 half half (E.h - half) (E.w - half)
    (fun ebr => AxpyTriangle uplo 1 FBR ebr)

/-- `El::LocalTrr2k` (Local.hpp lines 123-214): below the blocksize
threshold call the kernel, otherwise update the off-diagonal block of the
requested triangle directly (the first `Gemm` carrying `gamma`) and recurse
on the two diagonal blocks.  `gw` is the grid width and `bs` the value of
`LocalTrr2kBlocksize<T>()`; the extra `fuel` argument bounds the recursion
depth (the source recursion terminates whenever `gw * bs ≥ 2`, and then
`fuel = E.h` suffices). -/
def LocalTrr2k (gw bs : Nat) : Nat → UpperOrLower →
    Orientation → Orientation → Orientation → Orientation →
    T → Mat T → Mat T → T → Mat T → Mat T → T → Mat T → Mat T
  | 0, _, _, _, _, _, _, _, _, _, _, _, _, E => E
  | fuel + 1, uplo, orientA, orientB, orientC, orientD,
      alpha, A, B, beta, C, D, gamma, E =>
    if E.h < gw * bs then
      LocalTrr2kKernel uplo orientA orientB orientC orientD
        alpha A B beta C D gamma E
    else
      let half := E.h / 2
      let E1 :=
        if uplo = UpperOrLower.LOWER then
          applyToBlock E half 0 (E.h - half) half (fun ebl =>
            gemmCore orientC orientD beta (partA1 orientC C half) (partB0 orientD D half) 1
              (gemmCore orientA orientB alpha (partA1 orientA A half) (partB0 orientB B half) gamma ebl))
        else
          applyToBlock E 0 half half (E.w - half) (fun etr =>
            gemmCore orientC orientD beta (partA0 orientC C half) (partB1 orientD D half) 1
              (gemmCore orientA orientB alpha (partA0 orientA A half) (partB1 orientB B half) gamma etr))
      let E2 := applyToBlock E1 0 0 half half (fun etl =>
        LocalTrr2k gw bs fuel uplo orientA orientB orientC orientD
          alpha (partA0 orientA A half) (partB0 orientB B half)
          beta (partA0 orientC C half) (partB0 orientD D half) gamma etl)
      applyToBlock E2 half half (E.h - half) (E.w - half) (fun ebr =>
        LocalTrr2k gw bs fuel uplo orientA orientB orientC orientD
          alpha (partA1 orientA A half) (partB1 orientB B half)
          beta (partA1 orientC C half) (partB1 orientD D half) gamma ebr)

end Trr2k

/-- `op(A)` as a matrix entry function. -/
def opM [Star T] (o : Orientation) (A : Mat T) (i l : Nat) : T :=
  match o with
  | .NORMAL => A.e i l
  | .TRANSPOSE => A.e l i
  | .ADJOINT => star (A.e l i)

/-- Height of `op(A)`. -/
def opH (o : Orientation) (A : Mat T) : Nat :=
  if o = Orientation.NORMAL then A.h else A.w

/-- Width of `op(A)`. -/
def opW (o : Orientation) (A : Mat T) : Nat :=
  if o = Orientation.NORMAL then A.w else A.h

/-- Entry `(i,j)` of the product `op(A)·op(B)`. -/
def prodM [Star T] [NonUnitalNonAssocSemiring T] (o1 o2 : Orientation)
    (A B : Mat T) (i j : Nat) : T :=
  ∑ l ∈ Finset.range (opW o1 A), opM o1 A i l * opM o2 B l j

end Elemental

namespace Elemental

variable {T : Type}

theorem Mat.buf_at (A : Mat T) (i j : Nat) (hi : i < A.h) :
    A.buf (i + j * A.h) = A.e i j := by
  unfold Mat.buf
  have hmod : (i + j * A.h) % A.h = i := by
    rw [Nat.add_mul_mod_self_right, Nat.mod_eq_of_lt hi]
  have hdiv : (i + j * A.h) / A.h = j := by
    rw [Nat.add_mul_div_right _ _ (by omega : 0 < A.h),
      Nat.div_eq_of_lt hi, Nat.zero_add]
  rw [hmod, hdiv]

theorem validTrans_toChar (o : Orientation) : validTrans (OrientationToChar o) := by
  cases o
  · exact Or.inl (by decide)
  · exact Or.inr (Or.inl (by decide))
  · exact Or.inr (Or.inr (by decide))

section GemmCoreLemmas
variable [CommRing T] [StarRing T] [DecidableEq T]

theorem gemmCore_h (o1 o2 : Orientation) (alpha beta : T) (A B C : Mat T) :
    (gemmCore o1 o2 alpha A B beta C).h = C.h := by
  unfold gemmCore
  dsimp only
  split <;> first | rfl | (split <;> rfl)

theorem gemmCore_w (o1 o2 : Orientation) (alpha beta : T) (A B C : Mat T) :
    (gemmCore o1 o2 alpha A B beta C).w = C.w := by
  unfold gemmCore
  dsimp only
  split <;> first | rfl | (split <;> rfl)

theorem opEntry_buf_left (o : Orientation) (A : Mat T) (C : Mat T) (i l : Nat)
    (hA : opH o A = C.h) (hi : i < C.h) (hl : l < opW o A) :
    opEntry (OrientationToChar o) A.buf A.h i l = opM o A i l := by
  cases o
  · show opEntry 'N' A.buf A.h i l = A.e i l
    rw [opEntry, if_pos (by decide)]
    refine A.buf_at i l ?_
    simp only [opH] at hA
    simp at hA
    omega
  · show opEntry 'T' A.buf A.h i l = A.e l i
    rw [opEntry, if_neg (by decide), if_pos (by decide)]
    refine A.buf_at l i ?_
    simp [opW] at hl
    omega
  · show opEntry 'C' A.buf A.h i l = star (A.e l i)
    rw [opEntry, if_neg (by decide), if_neg (by decide)]
    have hl' : l < A.h := by
      simp [opW] at hl
      omega
    rw [A.buf_at l i hl']

theorem opEntry_buf_right (o : Orientation) (B : Mat T) (C : Mat T) (l j kk : Nat)
    (hB : opW o B = C.w) (hk : kk = opH o B) (hj : j < C.w) (hl : l < kk) :
    opEntry (OrientationToChar o) B.buf B.h l j = opM o B l j := by
  subst hk
  cases o
  · show opEntry 'N' B.buf B.h l j = B.e l j
    rw [opEntry, if_pos (by decide)]
    refine B.buf_at l j ?_
    simp [opH] at hl
    omega
  · show opEntry 'T' B.buf B.h l j = B.e j l
    rw [opEntry, if_neg (by decide), if_pos (by decide)]
    refine B.buf_at j l ?_
    simp [opW] at hB
    omega
  · show opEntry 'C' B.buf B.h l j = star (B.e j l)
    rw [opEntry, if_neg (by decide), if_neg (by decide)]
    have hj' : j < B.h := by
      simp [opW] at hB
      omega
    rw [B.buf_at j l hj']

/-- Entry-level specification of `gemmCore`:
`C' = alpha·op(A)op(B) + beta·C` at every in-range entry. -/
theorem gemmCore_entry (o1 o2 : Orientation) (alpha beta : T) (A B C : Mat T)
    (hA : opH o1 A = C.h) (hB : opW o2 B = C.w) (hAB : opW o1 A = opH o2 B)
    (i j : Nat) (hi : i < C.h) (hj : j < C.w) :
    (gemmCore o1 o2 alpha A B beta C).e i j
      = alpha * prodM o1 o2 A B i j + beta * C.e i j := by
  have hkshape : (if o1 = Orientation.NORMAL then A.w else A.h) = opW o1 A := rfl
  unfold gemmCore
  by_cases hk : (if o1 = Orientation.NORMAL then A.w else A.h) = 0
  · rw [if_neg (by simpa using hk)]
    show C.e i j * beta = _
    have hk' : opW o1 A = 0 := by rw [← hkshape]; exact hk
    unfold prodM
    rw [hk']
    simp [mul_comm]
  · rw [if_pos (by simpa using hk)]
    show (if i < C.h ∧ j < C.w then _ else _) = _
    rw [if_pos ⟨hi, hj⟩]
    rw [blas_Gemm_entry (OrientationToChar o1) (OrientationToChar o2)
      (validTrans_toChar o1) (validTrans_toChar o2)
      C.h C.w (if o1 = Orientation.NORMAL then A.w else A.h) A.h B.h C.h
      (le_refl C.h) alpha beta A.buf B.buf C.buf i j hi hj]
    rw [C.buf_at i j hi, hkshape]
    congr 1
    congr 1
    refine Finset.sum_congr rfl (fun l hl => ?_)
    have hl' : l < opW o1 A := Finset.mem_range.mp hl
    rw [opEntry_buf_left o1 A C i l hA hi hl',
      opEntry_buf_right o2 B C l j (opW o1 A) hB hAB hj hl']

/-- The composite update `E0 ← beta·op(C)op(D) + (alpha·op(A)op(B) + betaInner·E0)`
realised by two chained `gemmCore` calls. -/
theorem twoGemm_entry (o1 o2 o3 o4 : Orientation) (alpha beta betaInner : T)
    (A B C D E0 : Mat T)
    (hA : opH o1 A = E0.h) (hB : opW o2 B = E0.w) (hAB : opW o1 A = opH o2 B)
    (hC : opH o3 C = E0.h) (hD : opW o4 D = E0.w) (hCD : opW o3 C = opH o4 D)
    (i j : Nat) (hi : i < E0.h) (hj : j < E0.w) :
    (gemmCore o3 o4 beta C D 1 (gemmCore o1 o2 alpha A B betaInner E0)).e i j
      = beta * prodM o3 o4 C D i j
        + (alpha * prodM o1 o2 A B i j + betaInner * E0.e i j) := by
  have hih : (gemmCore o1 o2 alpha A B betaInner E0).h = E0.h := gemmCore_h _ _ _ _ _ _ _
  have hiw : (gemmCore o1 o2 alpha A B betaInner E0).w = E0.w := gemmCore_w _ _ _ _ _ _ _
  rw [gemmCore_entry o3 o4 beta 1 C D _ (by rw [hih, hC]) (by rw [hiw, hD]) hCD i j
    (by rw [hih]; exact hi) (by rw [hiw]; exact hj)]
  rw [gemmCore_entry o1 o2 alpha betaInner A B E0 hA hB hAB i j hi hj]
  rw [one_mul]

end GemmCoreLemmas

end Elemental

namespace Elemental

variable {T : Type}

@[simp] theorem Mat.sub_e (A : Mat T) (r0 c0 h w i j : Nat) :
    (A.sub r0 c0 h w).e i j = A.e (r0 + i) (c0 + j) := rfl

theorem applyToBlock_in (E : Mat T) (r0 c0 h w : Nat) (f : Mat T → Mat T)
    (i j : Nat) (hi : r0 ≤ i ∧ i < r0 + h) (hj : c0 ≤ j ∧ j < c0 + w) :
    (applyToBlock E r0 c0 h w f).e i j
      = (f (E.sub r0 c0 h w)).e (i - r0) (j - c0) := by
  unfold applyToBlock
  exact if_pos ⟨hi.1, hi.2, hj.1, hj.2⟩

theorem applyToBlock_out (E : Mat T) (r0 c0 h w : Nat) (f : Mat T → Mat T)
    (i j : Nat) (h' : ¬(r0 ≤ i ∧ i < r0 + h ∧ c0 ≤ j ∧ j < c0 + w)) :
    (applyToBlock E r0 c0 h w f).e i j = E.e i j := by
  unfold applyToBlock
  exact if_neg h'

@[simp] theorem applyToBlock_h (E : Mat T) (r0 c0 h w : Nat) (f : Mat T → Mat T) :
    (applyToBlock E r0 c0 h w f).h = E.h := rfl

@[simp] theorem applyToBlock_w (E : Mat T) (r0 c0 h w : Nat) (f : Mat T → Mat T) :
    (applyToBlock E r0 c0 h w f).w = E.w := rfl

section BlockLemmas
variable [Star T]

/-- The `0` part of the A-type partition acts as `op(A)` unshifted. -/
theorem opM_blockA0 (o : Orientation) (A : Mat T) (half i l : Nat) :
    opM o (partA0 o A half) i l = opM o A i l := by
  cases o <;> simp [opM, partA0]

/-- The `1` part of the A-type partition acts as `op(A)` shifted by `half`
rows of `op(A)`. -/
theorem opM_blockA1 (o : Orientation) (A : Mat T) (half i l : Nat) :
    opM o (partA1 o A half) i l = opM o A (half + i) l := by
  cases o <;> simp [opM, partA1]

/-- The `0` part of the B-type partition acts as `op(B)` unshifted. -/
theorem opM_blockB0 (o : Orientation) (B : Mat T) (half l j : Nat) :
    opM o (partB0 o B half) l j = opM o B l j := by
  cases o <;> simp [opM, partB0]

/-- The `1` part of the B-type partition acts as `op(B)` shifted by `half`
columns of `op(B)`. -/
theorem opM_blockB1 (o : Orientation) (B : Mat T) (half l j : Nat) :
    opM o (partB1 o B half) l j = opM o B l (half + j) := by
  cases o <;> simp [opM, partB1]

end BlockLemmas

theorem opH_blockA0 (o : Orientation) (A : Mat T) (half : Nat) :
    opH o (partA0 o A half) = half := by
  cases o <;> simp [opH, partA0, Mat.sub]

theorem opH_blockA1 (o : Orientation) (A : Mat T) (half : Nat) :
    opH o (partA1 o A half) = opH o A - half := by
  cases o <;> simp [opH, partA1, Mat.sub]

theorem opW_blockA0 (o : Orientation) (A : Mat T) (half : Nat) :
    opW o (partA0 o A half) = opW o A := by
  cases o <;> simp [opW, partA0, Mat.sub]

theorem opW_blockA1 (o : Orientation) (A : Mat T) (half : Nat) :
    opW o (partA1 o A half) = opW o A := by
  cases o <;> simp [opW, partA1, Mat.sub]

theorem opW_blockB0 (o : Orientation) (B : Mat T) (half : Nat) :
    opW o (partB0 o B half) = half := by
  cases o <;> simp [opW, partB0, Mat.sub]

theorem opW_blockB1 (o : Orientation) (B : Mat T) (half : Nat) :
    opW o (partB1 o B half) = opW o B - half := by
  cases o <;> simp [opW, partB1, Mat.sub]

theorem opH_blockB0 (o : Orientation) (B : Mat T) (half : Nat) :
    opH o (partB0 o B half) = opH o B := by
  cases o <;> simp [opH, partB0, Mat.sub]

theorem opH_blockB1 (o : Orientation) (B : Mat T) (half : Nat) :
    opH o (partB1 o B half) = opH o B := by
  cases o <;> simp [opH, partB1, Mat.sub]

section ProdLemmas
variable [Star T] [NonUnitalNonAssocSemiring T]

theorem prodM_block00 (o1 o2 : Orientation) (A B : Mat T) (half i j : Nat) :
    prodM o1 o2 (partA0 o1 A half) (partB0 o2 B half) i j
      = prodM o1 o2 A B i j := by
  unfold prodM
  rw [opW_blockA0]
  exact Finset.sum_congr rfl (fun l _ => by rw [opM_blockA0, opM_blockB0])

theorem prodM_block10 (o1 o2 : Orientation) (A B : Mat T) (half i j : Nat) :
    prodM o1 o2 (partA1 o1 A half) (partB0 o2 B half) i j
      = prodM o1 o2 A B (half + i) j := by
  unfold prodM
  rw [opW_blockA1]
  exact Finset.sum_congr rfl (fun l _ => by rw [opM_blockA1, opM_blockB0])

theorem prodM_block01 (o1 o2 : Orientation) (A B : Mat T) (half i j : Nat) :
    prodM o1 o2 (partA0 o1 A half) (partB1 o2 B half) i j
      = prodM o1 o2 A B i (half + j) := by
  unfold prodM
  rw [opW_blockA0]
  exact Finset.sum_congr rfl (fun l _ => by rw [opM_blockA0, opM_blockB1])

theorem prodM_block11 (o1 o2 : Orientation) (A B : Mat T) (half i j : Nat) :
    prodM o1 o2 (partA1 o1 A half) (partB1 o2 B half) i j
      = prodM o1 o2 A B (half + i) (half + j) := by
  unfold prodM
  rw [opW_blockA1]
  exact Finset.sum_congr rfl (fun l _ => by rw [opM_blockA1, opM_blockB1])

end ProdLemmas

end Elemental

namespace Elemental

variable {T : Type}

theorem ScaleTrapezoid_e [Mul T] (gamma : T) (uplo : UpperOrLower) (E : Mat T)
    (i j : Nat) :
    (ScaleTrapezoid gamma uplo E).e i j
      = if inTri uplo i j then gamma * E.e i j else E.e i j := rfl

theorem AxpyTriangle_e [Mul T] [Add T] (uplo : UpperOrLower) (alpha : T)
    (X Y : Mat T) (i j : Nat) :
    (AxpyTriangle uplo alpha X Y).e i j
      = if inTri uplo i j then Y.e i j + alpha * X.e i j else Y.e i j := rfl

theorem inTri_shift (uplo : UpperOrLower) (half i j : Nat)
    (hi : half ≤ i) (hj : half ≤ j) :
    inTri uplo (i - half) (j - half) = inTri uplo i j := by
  cases uplo <;> simp [inTri] <;> omega

section DiagF
variable [CommRing T] [StarRing T] [DecidableEq T]

theorem diagF_entry (o1 o2 o3 o4 : Orientation) (alpha beta : T)
    (A0 B0 C0 D0 : Mat T) (h w : Nat)
    (hA : opH o1 A0 = h) (hB : opW o2 B0 = w) (hAB : opW o1 A0 = opH o2 B0)
    (hC : opH o3 C0 = h) (hD : opW o4 D0 = w) (hCD : opW o3 C0 = opH o4 D0)
    (i j : Nat) (hi : i < h) (hj : j < w) :
    (diagF o1 o2 o3 o4 alpha A0 B0 beta C0 D0 h w).e i j
      = beta * prodM o3 o4 C0 D0 i j + alpha * prodM o1 o2 A0 B0 i j := by
  unfold diagF
  rw [twoGemm_entry o1 o2 o3 o4 alpha beta 0 A0 B0 C0 D0
    (Mat.mk h w (fun _ _ => 0)) hA hB hAB hC hD hCD i j hi hj]
  simp

end DiagF

end Elemental

namespace Elemental

variable {T : Type}

section KernelSpec
variable [CommRing T] [StarRing T] [DecidableEq T]

theorem LocalTrr2kKernel_h (uplo : UpperOrLower) (oA oB oC oD : Orientation)
    (alpha beta gamma : T) (A B C D E : Mat T) :
    (LocalTrr2kKernel uplo oA oB oC oD alpha A B beta C D gamma E).h = E.h := by
  cases uplo <;> rfl

theorem LocalTrr2kKernel_w (uplo : UpperOrLower) (oA oB oC oD : Orientation)
    (alpha beta gamma : T) (A B C D E : Mat T) :
    (LocalTrr2kKernel uplo oA oB oC oD alpha A B beta C D gamma E).w = E.w := by
  cases uplo <;> rfl

/-- Entry-level specification of `LocalTrr2kKernel`: on the requested
triangle `E' = alpha op(A)op(B) + beta op(C)op(D) + gamma E`, strictly on
the other side `E' = E`. -/
theorem LocalTrr2kKernel_entry (uplo : UpperOrLower) (oA oB oC oD : Orientation)
    (alpha beta gamma : T) (A B C D E : Mat T)
    (hsq : E.h = E.w)
    (hA : opH oA A = E.h) (hB : opW oB B = E.h) (hAB : opW oA A = opH oB B)
    (hC : opH oC C = E.h) (hD : opW oD D = E.h) (hCD : opW oC C = opH oD D)
    (i j : Nat) (hi : i < E.h) (hj : j < E.w) :
    (LocalTrr2kKernel uplo oA oB oC oD alpha A B beta C D gamma E).e i j
      = if inTri uplo i j then
          alpha * prodM oA oB A B i j + beta * prodM oC oD C D i j + gamma * E.e i j
        else E.e i j := by
  have hh : E.h / 2 ≤ E.h := Nat.div_le_self _ _
  cases uplo
  case LOWER =>
    unfold LocalTrr2kKernel
    dsimp only
    rw [if_pos rfl]
    by_cases hiH : i < E.h / 2
    · by_cases hjH : j < E.h / 2
      · -- top-left diagonal block
        have hFTL : (diagF oA oB oC oD alpha (partA0 oA A (E.h / 2))
            (partB0 oB B (E.h / 2)) beta (partA0 oC C (E.h / 2))
            (partB0 oD D (E.h / 2)) (E.h / 2) (E.h / 2)).e i j
            = beta * prodM oC oD C D i j + alpha * prodM oA oB A B i j := by
          rw [diagF_entry oA oB oC oD alpha beta _ _ _ _ (E.h / 2) (E.h / 2)
            (opH_blockA0 oA A _) (opW_blockB0 oB B _)
            (by rw [opW_blockA0, opH_blockB0]; exact hAB)
            (opH_blockA0 oC C _) (opW_blockB0 oD D _)
            (by rw [opW_blockA0, opH_blockB0]; exact hCD) i j hiH hjH,
            prodM_block00, prodM_block00]
        rw [applyToBlock_out _ _ _ _ _ _ i j (by omega)]
        rw [applyToBlock_in _ 0 0 (E.h / 2) (E.h / 2) _ i j
          ⟨Nat.zero_le i, by omega⟩ ⟨Nat.zero_le j, by omega⟩]
        simp only [Nat.sub_zero]
        rw [AxpyTriangle_e]
        simp only [Mat.sub_e, Nat.zero_add]
        rw [applyToBlock_out _ _ _ _ _ _ i j (by omega)]
        rw [ScaleTrapezoid_e, hFTL]
        split_ifs with ht
        · ring
        · rfl
      · -- top-right: untouched in the LOWER case
        have hft : inTri UpperOrLower.LOWER i j = false := by
          simp only [inTri, decide_eq_false_iff_not]
          omega
        rw [applyToBlock_out _ _ _ _ _ _ i j (by omega)]
        rw [applyToBlock_out _ _ _ _ _ _ i j (by omega)]
        rw [applyToBlock_out _ _ _ _ _ _ i j (by omega)]
        rw [ScaleTrapezoid_e]
        simp [hft]
    · by_cases hjH : j < E.h / 2
      · -- bottom-left block
        have htt : inTri UpperOrLower.LOWER i j = true := by
          simp only [inTri, decide_eq_true_eq]
          omega
        rw [applyToBlock_out _ _ _ _ _ _ i j (by omega)]
        rw [applyToBlock_out _ _ _ _ _ _ i j (by omega)]
        rw [applyToBlock_in _ (E.h / 2) 0 (E.h - E.h / 2) (E.h / 2) _ i j
          ⟨by omega, by omega⟩ ⟨Nat.zero_le j, by omega⟩]
        simp only [Nat.sub_zero]
        rw [twoGemm_entry oA oB oC oD alpha beta 1
          (partA1 oA A (E.h / 2)) (partB0 oB B (E.h / 2))
          (partA1 oC C (E.h / 2)) (partB0 oD D (E.h / 2))
          ((ScaleTrapezoid gamma UpperOrLower.LOWER E).sub (E.h / 2) 0
            (E.h - E.h / 2) (E.h / 2))
          (by rw [opH_blockA1, hA]; rfl) (by rw [opW_blockB0]; rfl)
          (by rw [opW_blockA1, opH_blockB0]; exact hAB)
          (by rw [opH_blockA1, hC]; rfl) (by rw [opW_blockB0]; rfl)
          (by rw [opW_blockA1, opH_blockB0]; exact hCD)
          (i - E.h / 2) j (by show i - E.h / 2 < E.h - E.h / 2; omega)
          (by show j < E.h / 2; omega)]
        rw [prodM_block10, prodM_block10]
        simp only [Mat.sub_e, Nat.zero_add]
        rw [show E.h / 2 + (i - E.h / 2) = i from by omega]
        rw [ScaleTrapezoid_e, htt]
        simp only [reduceIte]
        ring
      · -- bottom-right diagonal block
        have hFBR : (diagF oA oB oC oD alpha (partA1 oA A (E.h / 2))
            (partB1 oB B (E.h / 2)) beta (partA1 oC C (E.h / 2))
            (partB1 oD D (E.h / 2)) (E.h - E.h / 2) (E.w - E.h / 2)).e
              (i - E.h / 2) (j - E.h / 2)
            = beta * prodM oC oD C D i j + alpha * prodM oA oB A B i j := by
          rw [diagF_entry oA oB oC oD alpha beta _ _ _ _ (E.h - E.h / 2) (E.w - E.h / 2)
            (by rw [opH_blockA1, hA]) (by rw [opW_blockB1, hB, hsq])
            (by rw [opW_blockA1, opH_blockB1]; exact hAB)
            (by rw [opH_blockA1, hC]) (by rw [opW_blockB1, hD, hsq])
            (by rw [opW_blockA1, opH_blockB1]; exact hCD)
            (i - E.h / 2) (j - E.h / 2) (by omega) (by omega),
            prodM_block11, prodM_block11,
            show E.h / 2 + (i - E.h / 2) = i from by omega,
            show E.h / 2 + (j - E.h / 2) = j from by omega]
        rw [applyToBlock_in _ (E.h / 2) (E.h / 2) (E.h - E.h / 2) (E.w - E.h / 2) _ i j
          ⟨by omega, by omega⟩ ⟨by omega, by omega⟩]
        rw [AxpyTriangle_e]
        rw [inTri_shift _ _ _ _ (by omega) (by omega)]
        rw [hFBR]
        simp only [Mat.sub_e]
        rw [show E.h / 2 + (i - E.h / 2) = i from by omega,
          show E.h / 2 + (j - E.h / 2) = j from by omega]
        rw [applyToBlock_out _ _ _ _ _ _ i j (by omega)]
        rw [applyToBlock_out _ _ _ _ _ _ i j (by omega)]
        rw [ScaleTrapezoid_e]
        split_ifs with ht
        · ring
        · rfl
  case UPPER =>
    unfold LocalTrr2kKernel
    dsimp only
    rw [if_neg (by decide)]
    by_cases hiH : i < E.h / 2
    · by_cases hjH : j < E.h / 2
      · -- top-left diagonal block
        have hFTL : (diagF oA oB oC oD alpha (partA0 oA A (E.h / 2))
            (partB0 oB B (E.h / 2)) beta (partA0 oC C (E.h / 2))
            (partB0 oD D (E.h / 2)) (E.h / 2) (E.h / 2)).e i j
            = beta * prodM oC oD C D i j + alpha * prodM oA oB A B i j := by
          rw [diagF_entry oA oB oC oD alpha beta _ _ _ _ (E.h / 2) (E.h / 2)
            (opH_blockA0 oA A _) (opW_blockB0 oB B _)
            (by rw [opW_blockA0, opH_blockB0]; exact hAB)
            (opH_blockA0 oC C _) (opW_blockB0 oD D _)
            (by rw [opW_blockA0, opH_blockB0]; exact hCD) i j hiH hjH,
            prodM_block00, prodM_block00]
        rw [applyToBlock_out _ _ _ _ _ _ i j (by omega)]
        rw [applyToBlock_in _ 0 0 (E.h / 2) (E.h / 2) _ i j
          ⟨Nat.zero_le i, by omega⟩ ⟨Nat.zero_le j, by omega⟩]
        simp only [Nat.sub_zero]
        rw [AxpyTriangle_e]
        simp only [Mat.sub_e, Nat.zero_add]
        rw [applyToBlock_out _ _ _ _ _ _ i j (by omega)]
        rw [ScaleTrapezoid_e, hFTL]
        split_ifs with ht
        · ring
        · rfl
      · -- top-right block: updated in the UPPER case
        have htt : inTri UpperOrLower.UPPER i j = true := by
          simp only [inTri, decide_eq_true_eq]
          omega
        rw [applyToBlock_out _ _ _ _ _ _ i j (by omega)]
        rw [applyToBlock_out _ _ _ _ _ _ i j (by omega)]
        rw [applyToBlock_in _ 0 (E.h / 2) (E.h / 2) (E.w - E.h / 2) _ i j
          ⟨Nat.zero_le i, by omega⟩ ⟨by omega, by omega⟩]
        simp only [Nat.sub_zero]
        rw [twoGemm_entry oA oB oC oD alpha beta 1
          (partA0 oA A (E.h / 2)) (partB1 oB B (E.h / 2))
          (partA0 oC C (E.h / 2)) (partB1 oD D (E.h / 2))
          ((ScaleTrapezoid gamma UpperOrLower.UPPER E).sub 0 (E.h / 2)
            (E.h / 2) (E.w - E.h / 2))
          (by rw [opH_blockA0]; rfl) (by rw [opW_blockB1, hB, hsq]; rfl)
          (by rw [opW_blockA0, opH_blockB1]; exact hAB)
          (by rw [opH_blockA0]; rfl) (by rw [opW_blockB1, hD, hsq]; rfl)
          (by rw [opW_blockA0, opH_blockB1]; exact hCD)
          i (j - E.h / 2) (by show i < E.h / 2; omega)
          (by show j - E.h / 2 < E.w - E.h / 2; omega)]
        rw [prodM_block01, prodM_block01]
        simp only [Mat.sub_e, Nat.zero_add]
        rw [show E.h / 2 + (j - E.h / 2) = j from by omega]
        rw [ScaleTrapezoid_e, htt]
        simp only [reduceIte]
        ring
    · by_cases hjH : j < E.h / 2
      · -- bottom-left: untouched in the UPPER case
        have hft : inTri UpperOrLower.UPPER i j = false := by
          simp only [inTri, decide_eq_false_iff_not]
          omega
        rw [applyToBlock_out _ _ _ _ _ _ i j (by omega)]
        rw [applyToBlock_out _ _ _ _ _ _ i j (by omega)]
        rw [applyToBlock_out _ _ _ _ _ _ i j (by omega)]
        rw [ScaleTrapezoid_e]
        simp [hft]
      · -- bottom-right diagonal block
        have hFBR : (diagF oA oB oC oD alpha (partA1 oA A (E.h / 2))
            (partB1 oB B (E.h / 2)) beta (partA1 oC C (E.h / 2))
            (partB1 oD D (E.h / 2)) (E.h - E.h / 2) (E.w - E.h / 2)).e
              (i - E.h / 2) (j - E.h / 2)
            = beta * prodM oC oD C D i j + alpha * prodM oA oB A B i j := by
          rw [diagF_entry oA oB oC oD alpha beta _ _ _ _ (E.h - E.h / 2) (E.w - E.h / 2)
            (by rw [opH_blockA1, hA]) (by rw [opW_blockB1, hB, hsq])
            (by rw [opW_blockA1, opH_blockB1]; exact hAB)
            (by rw [opH_blockA1, hC]) (by rw [opW_blockB1, hD, hsq])
            (by rw [opW_blockA1, opH_blockB1]; exact hCD)
            (i - E.h / 2) (j - E.h / 2) (by omega) (by omega),
            prodM_block11, prodM_block11,
            show E.h / 2 + (i - E.h / 2) = i from by omega,
            show E.h / 2 + (j - E.h / 2) = j from by omega]
        rw [applyToBlock_in _ (E.h / 2) (E.h / 2) (E.h - E.h / 2) (E.w - E.h / 2) _ i j
          ⟨by omega, by omega⟩ ⟨by omega, by omega⟩]
        rw [AxpyTriangle_e]
        rw [inTri_shift _ _ _ _ (by omega) (by omega)]
        rw [hFBR]
        simp only [Mat.sub_e]
        rw [show E.h / 2 + (i - E.h / 2) = i from by omega,
          show E.h / 2 + (j - E.h / 2) = j from by omega]
        rw [applyToBlock_out _ _ _ _ _ _ i j (by omega)]
        rw [applyToBlock_out _ _ _ _ _ _ i j (by omega)]
        rw [ScaleTrapezoid_e]
        split_ifs with ht
        · ring
        · rfl

end KernelSpec

end Elemental

namespace Elemental

variable {T : Type}

section RecSpec
variable [CommRing T] [StarRing T] [DecidableEq T]

/-- Entry-level specification of the recursive `LocalTrr2k`, by induction on
the recursion depth (`fuel ≥ E.h` suffices once the threshold
`g.Width()*LocalTrr2kBlocksize` is at least 2, which also makes the source
recursion terminate). -/
theorem LocalTrr2k_entry (gw bs : Nat) (hthr : 2 ≤ gw * bs) :
    ∀ (fuel : Nat) (uplo : UpperOrLower) (oA oB oC oD : Orientation)
      (alpha beta gamma : T) (A B C D E : Mat T),
      E.h ≤ fuel → E.h = E.w →
      opH oA A = E.h → opW oB B = E.h → opW oA A = opH oB B →
      opH oC C = E.h → opW oD D = E.h → opW oC C = opH oD D →
      ∀ i j, i < E.h → j < E.w →
      (LocalTrr2k gw bs fuel uplo oA oB oC oD alpha A B beta C D gamma E).e i j
        = if inTri uplo i j then
            alpha * prodM oA oB A B i j + beta * prodM oC oD C D i j
              + gamma * E.e i j
          else E.e i j := by
  intro fuel
  induction fuel with
  | zero =>
      intro uplo oA oB oC oD alpha beta gamma A B C D E hfuel hsq
        hA hB hAB hC hD hCD i j hi hj
      omega
  | succ fuel ih =>
      intro uplo oA oB oC oD alpha beta gamma A B C D E hfuel hsq
        hA hB hAB hC hD hCD i j hi hj
      rw [LocalTrr2k]
      by_cases hsz : E.h < gw * bs
      · rw [if_pos hsz]
        exact LocalTrr2kKernel_entry uplo oA oB oC oD alpha beta gamma A B C D E
          hsq hA hB hAB hC hD hCD i j hi hj
      · rw [if_neg hsz]
        dsimp only
        have h2 : 2 ≤ E.h := le_trans hthr (not_lt.mp hsz)
        have hhalflt : E.h / 2 < E.h := by omega
        cases uplo
        · rw [if_pos rfl]
          by_cases hiH : i < E.h / 2
          · by_cases hjH : j < E.h / 2
            · -- top-left block: recursion on ETL
              rw [applyToBlock_out _ _ _ _ _ _ i j (by omega)]
              rw [applyToBlock_in _ 0 0 (E.h / 2) (E.h / 2) _ i j
                ⟨Nat.zero_le i, by omega⟩ ⟨Nat.zero_le j, by omega⟩]
              simp only [Nat.sub_zero]
              rw [ih UpperOrLower.LOWER oA oB oC oD alpha beta gamma
                (partA0 oA A (E.h / 2)) (partB0 oB B (E.h / 2))
                (partA0 oC C (E.h / 2)) (partB0 oD D (E.h / 2)) _
                (by show E.h / 2 ≤ fuel; omega) rfl
                (by show opH oA (partA0 oA A (E.h / 2)) = E.h / 2; rw [opH_blockA0])
                (by show opW oB (partB0 oB B (E.h / 2)) = E.h / 2; rw [opW_blockB0])
                (by rw [opW_blockA0, opH_blockB0]; exact hAB)
                (by show opH oC (partA0 oC C (E.h / 2)) = E.h / 2; rw [opH_blockA0])
                (by show opW oD (partB0 oD D (E.h / 2)) = E.h / 2; rw [opW_blockB0])
                (by rw [opW_blockA0, opH_blockB0]; exact hCD)
                i j (by show i < E.h / 2; omega) (by show j < E.h / 2; omega)]
              rw [prodM_block00, prodM_block00]
              simp only [Mat.sub_e, Nat.zero_add]
              rw [applyToBlock_out _ _ _ _ _ _ i j (by omega)]
            · -- top-right: untouched
              have hft : inTri UpperOrLower.LOWER i j = false := by
                simp only [inTri, decide_eq_false_iff_not]
                omega
              rw [applyToBlock_out _ _ _ _ _ _ i j (by omega)]
              rw [applyToBlock_out _ _ _ _ _ _ i j (by omega)]
              rw [applyToBlock_out _ _ _ _ _ _ i j (by omega)]
              simp [hft]
          · by_cases hjH : j < E.h / 2
            · -- bottom-left block: direct two-Gemm update with gamma
              have htt : inTri UpperOrLower.LOWER i j = true := by
                simp only [inTri, decide_eq_true_eq]
                omega
              rw [applyToBlock_out _ _ _ _ _ _ i j (by omega)]
              rw [applyToBlock_out _ _ _ _ _ _ i j (by omega)]
              rw [applyToBlock_in _ (E.h / 2) 0 (E.h - E.h / 2) (E.h / 2) _ i j
                ⟨by omega, by omega⟩ ⟨Nat.zero_le j, by omega⟩]
              simp only [Nat.sub_zero]
              rw [twoGemm_entry oA oB oC oD alpha beta gamma
                (partA1 oA A (E.h / 2)) (partB0 oB B (E.h / 2))
                (partA1 oC C (E.h / 2)) (partB0 oD D (E.h / 2))
                (E.sub (E.h / 2) 0 (E.h - E.h / 2) (E.h / 2))
                (by show _ = E.h - E.h / 2; rw [opH_blockA1, hA])
                (by show opW oB (partB0 oB B (E.h / 2)) = E.h / 2; rw [opW_blockB0])
                (by rw [opW_blockA1, opH_blockB0]; exact hAB)
                (by show _ = E.h - E.h / 2; rw [opH_blockA1, hC])
                (by show opW oD (partB0 oD D (E.h / 2)) = E.h / 2; rw [opW_blockB0])
                (by rw [opW_blockA1, opH_blockB0]; exact hCD)
                (i - E.h / 2) j (by show i - E.h / 2 < E.h - E.h / 2; omega)
                (by show j < E.h / 2; omega)]
              rw [prodM_block10, prodM_block10]
              simp only [Mat.sub_e, Nat.zero_add]
              rw [show E.h / 2 + (i - E.h / 2) = i from by omega]
              rw [htt]
              simp only [reduceIte]
              ring
            · -- bottom-right block: recursion on EBR
              rw [applyToBlock_in _ (E.h / 2) (E.h / 2) (E.h - E.h / 2) (E.w - E.h / 2)
                _ i j ⟨by omega, by omega⟩ ⟨by omega, by omega⟩]
              rw [ih UpperOrLower.LOWER oA oB oC oD alpha beta gamma
                (partA1 oA A (E.h / 2)) (partB1 oB B (E.h / 2))
                (partA1 oC C (E.h / 2)) (partB1 oD D (E.h / 2)) _
                (by show E.h - E.h / 2 ≤ fuel; omega)
                (by show E.h - E.h / 2 = E.w - E.h / 2; omega)
                (by show _ = E.h - E.h / 2; rw [opH_blockA1, hA])
                (by show _ = E.h - E.h / 2; rw [opW_blockB1, hB])
                (by rw [opW_blockA1, opH_blockB1]; exact hAB)
                (by show _ = E.h - E.h / 2; rw [opH_blockA1, hC])
                (by show _ = E.h - E.h / 2; rw [opW_blockB1, hD])
                (by rw [opW_blockA1, opH_blockB1]; exact hCD)
                (i - E.h / 2) (j - E.h / 2)
                (by show i - E.h / 2 < E.h - E.h / 2; omega)
                (by show j - E.h / 2 < E.w - E.h / 2; omega)]
              rw [inTri_shift _ _ _ _ (by omega) (by omega)]
              rw [prodM_block11, prodM_block11]
              simp only [Mat.sub_e]
              rw [show E.h / 2 + (i - E.h / 2) = i from by omega,
                show E.h / 2 + (j - E.h / 2) = j from by omega]
              rw [applyToBlock_out _ _ _ _ _ _ i j (by omega)]
              rw [applyToBlock_out _ _ _ _ _ _ i j (by omega)]
        · rw [if_neg (by decide)]
          by_cases hiH : i < E.h / 2
          · by_cases hjH : j < E.h / 2
            · -- top-left block: recursion on ETL
              rw [applyToBlock_out _ _ _ _ _ _ i j (by omega)]
              rw [applyToBlock_in _ 0 0 (E.h / 2) (E.h / 2) _ i j
                ⟨Nat.zero_le i, by omega⟩ ⟨Nat.zero_le j, by omega⟩]
              simp only [Nat.sub_zero]
              rw [ih UpperOrLower.UPPER oA oB oC oD alpha beta gamma
                (partA0 oA A (E.h / 2)) (partB0 oB B (E.h / 2))
                (partA0 oC C (E.h / 2)) (partB0 oD D (E.h / 2)) _
                (by show E.h / 2 ≤ fuel; omega) rfl
                (by show opH oA (partA0 oA A (E.h / 2)) = E.h / 2; rw [opH_blockA0])
                (by show opW oB (partB0 oB B (E.h / 2)) = E.h / 2; rw [opW_blockB0])
                (by rw [opW_blockA0, opH_blockB0]; exact hAB)
                (by show opH oC (partA0 oC C (E.h / 2)) = E.h / 2; rw [opH_blockA0])
                (by show opW oD (partB0 oD D (E.h / 2)) = E.h / 2; rw [opW_blockB0])
                (by rw [opW_blockA0, opH_blockB0]; exact hCD)
                i j (by show i < E.h / 2; omega) (by show j < E.h / 2; omega)]
              rw [prodM_block00, prodM_block00]
              simp only [Mat.sub_e, Nat.zero_add]
              rw [applyToBlock_out _ _ _ _ _ _ i j (by omega)]
            · -- top-right block: direct two-Gemm update with gamma
              have htt : inTri UpperOrLower.UPPER i j = true := by
                simp only [inTri, decide_eq_true_eq]
                omega
              rw [applyToBlock_out _ _ _ _ _ _ i j (by omega)]
              rw [applyToBlock_out _ _ _ _ _ _ i j (by omega)]
              rw [applyToBlock_in _ 0 (E.h / 2) (E.h / 2) (E.w - E.h / 2) _ i j
                ⟨Nat.zero_le i, by omega⟩ ⟨by omega, by omega⟩]
              simp only [Nat.sub_zero]
              rw [twoGemm_entry oA oB oC oD alpha beta gamma
                (partA0 oA A (E.h / 2)) (partB1 oB B (E.h / 2))
                (partA0 oC C (E.h / 2)) (partB1 oD D (E.h / 2))
                (E.sub 0 (E.h / 2) (E.h / 2) (E.w - E.h / 2))
                (by show opH oA (partA0 oA A (E.h / 2)) = E.h / 2; rw [opH_blockA0])
                (by show _ = E.w - E.h / 2; rw [opW_blockB1, hB, hsq])
                (by rw [opW_blockA0, opH_blockB1]; exact hAB)
                (by show opH oC (partA0 oC C (E.h / 2)) = E.h / 2; rw [opH_blockA0])
                (by show _ = E.w - E.h / 2; rw [opW_blockB1, hD, hsq])
                (by rw [opW_blockA0, opH_blockB1]; exact hCD)
                i (j - E.h / 2) (by show i < E.h / 2; omega)
                (by show j - E.h / 2 < E.w - E.h / 2; omega)]
              rw [prodM_block01, prodM_block01]
              simp only [Mat.sub_e, Nat.zero_add]
              rw [show E.h / 2 + (j - E.h / 2) = j from by omega]
              rw [htt]
              simp only [reduceIte]
              ring
          · by_cases hjH : j < E.h / 2
            · -- bottom-left: untouched
              have hft : inTri UpperOrLower.UPPER i j = false := by
                simp only [inTri, decide_eq_false_iff_not]
                omega
              rw [applyToBlock_out _ _ _ _ _ _ i j (by omega)]
              rw [applyToBlock_out _ _ _ _ _ _ i j (by omega)]
              rw [applyToBlock_out _ _ _ _ _ _ i j (by omega)]
              simp [hft]
            · -- bottom-right block: recursion on EBR
              rw [applyToBlock_in _ (E.h / 2) (E.h / 2) (E.h - E.h / 2) (E.w - E.h / 2)
                _ i j ⟨by omega, by omega⟩ ⟨by omega, by omega⟩]
              rw [ih UpperOrLower.UPPER oA oB oC oD alpha beta gamma
                (partA1 oA A (E.h / 2)) (partB1 oB B (E.h / 2))
                (partA1 oC C (E.h / 2)) (partB1 oD D (E.h / 2)) _
                (by show E.h - E.h / 2 ≤ fuel; omega)
                (by show E.h - E.h / 2 = E.w - E.h / 2; omega)
                (by show _ = E.h - E.h / 2; rw [opH_blockA1, hA])
                (by show _ = E.h - E.h / 2; rw [opW_blockB1, hB])
                (by rw [opW_blockA1, opH_blockB1]; exact hAB)
                (by show _ = E.h - E.h / 2; rw [opH_blockA1, hC])
                (by show _ = E.h - E.h / 2; rw [opW_blockB1, hD])
                (by rw [opW_blockA1, opH_blockB1]; exact hCD)
                (i - E.h / 2) (j - E.h / 2)
                (by show i - E.h / 2 < E.h - E.h / 2; omega)
                (by show j - E.h / 2 < E.w - E.h / 2; omega)]
              rw [inTri_shift _ _ _ _ (by omega) (by omega)]
              rw [prodM_block11, prodM_block11]
              simp only [Mat.sub_e]
              rw [show E.h / 2 + (i - E.h / 2) = i from by omega,
                show E.h / 2 + (j - E.h / 2) = j from by omega]
              rw [applyToBlock_out _ _ _ _ _ _ i j (by omega)]
              rw [applyToBlock_out _ _ _ _ _ _ i j (by omega)]

end RecSpec

end Elemental

namespace Elemental

variable {T : Type}

/-- C2: for every uplo and orientation quadruple and conformal operands,
`LocalTrr2k` leaves every entry of `E` strictly on the side of the diagonal
opposite to `uplo` unchanged, and sets each entry `(i,j)` of `E` in the
requested triangle to
`alpha (op(A)op(B))(i,j) + beta (op(C)op(D))(i,j) + gamma E(i,j)` (stated
for any recursion threshold `gw*bs ≥ 2`, under which the source recursion
terminates, with recursion depth `fuel ≥ E.h`). -/
theorem C2_localTrr2k_triangle [CommRing T] [StarRing T] [DecidableEq T]
    (gw bs fuel : Nat) (hthr : 2 ≤ gw * bs)
    (uplo : UpperOrLower) (oA oB oC oD : Orientation)
    (alpha beta gamma : T) (A B C D E : Mat T)
    (hfuel : E.h ≤ fuel) (hsq : E.h = E.w)
    (hA : opH oA A = E.h) (hB : opW oB B = E.h) (hAB : opW oA A = opH oB B)
    (hC : opH oC C = E.h) (hD : opW oD D = E.h) (hCD : opW oC C = opH oD D)
    (i j : Nat) (hi : i < E.h) (hj : j < E.w) :
    (inTri uplo i j = true →
      (LocalTrr2k gw bs fuel uplo oA oB oC oD alpha A B beta C D gamma E).e i j
        = alpha * prodM oA oB A B i j + beta * prodM oC oD C D i j
          + gamma * E.e i j)
    ∧ (inTri uplo i j = false →
      (LocalTrr2k gw bs fuel uplo oA oB oC oD alpha A B beta C D gamma E).e i j
        = E.e i j) := by
  have h := LocalTrr2k_entry gw bs hthr fuel uplo oA oB oC oD alpha beta gamma
    A B C D E hfuel hsq hA hB hAB hC hD hCD i j hi hj
  constructor
  · intro ht
    rw [h, ht]
    simp only [reduceIte]
  · intro hf
    rw [h, hf]
    simp only [Bool.false_eq_true, if_false]

/-- Concrete operands for the C2 witness (2×2, on a threshold-2 grid, so the
recursive branch of `LocalTrr2k` is exercised). -/
def c2E : Mat ℤ := Mat.mk 2 2 (fun i j => (i : ℤ) * 10 + j)

/-- Concrete `A` operand for the C2 witness. -/
def c2A : Mat ℤ := Mat.mk 2 2 (fun i j => (i : ℤ) + 2 * j + 1)

/-- Concrete `B` operand for the C2 witness. -/
def c2B : Mat ℤ := Mat.mk 2 2 (fun i j => (i : ℤ) - j + 3)

/-- Concrete `C` operand for the C2 witness. -/
def c2C : Mat ℤ := Mat.mk 2 2 (fun i j => 2 * (i : ℤ) - j)

/-- Concrete `D` operand for the C2 witness. -/
def c2D : Mat ℤ := Mat.mk 2 2 (fun i j => (i : ℤ) * j + 2)

/-- Witness for C2 at a concrete input (`LOWER`, entry (1,0), orientations
N/T/C/N, recursion threshold `2·1`). -/
theorem C2_localTrr2k_triangle_witness :
    (inTri UpperOrLower.LOWER 1 0 = true →
      (LocalTrr2k 2 1 2 UpperOrLower.LOWER Orientation.NORMAL
          Orientation.TRANSPOSE Orientation.ADJOINT Orientation.NORMAL
          (2 : ℤ) c2A c2B 3 c2C c2D 5 c2E).e 1 0
        = 2 * prodM Orientation.NORMAL Orientation.TRANSPOSE c2A c2B 1 0
          + 3 * prodM Orientation.ADJOINT Orientation.NORMAL c2C c2D 1 0
          + 5 * c2E.e 1 0)
    ∧ (inTri UpperOrLower.LOWER 1 0 = false →
      (LocalTrr2k 2 1 2 UpperOrLower.LOWER Orientation.NORMAL
          Orientation.TRANSPOSE Orientation.ADJOINT Orientation.NORMAL
          (2 : ℤ) c2A c2B 3 c2C c2D 5 c2E).e 1 0
        = c2E.e 1 0) :=
  C2_localTrr2k_triangle 2 1 2 (by decide) UpperOrLower.LOWER
    Orientation.NORMAL Orientation.TRANSPOSE Orientation.ADJOINT
    Orientation.NORMAL 2 3 5 c2A c2B c2C c2D c2E
    (by decide) rfl rfl rfl rfl rfl rfl rfl 1 0 (by decide) (by decide)

end Elemental

namespace Elemental

/-! ## `lapack::HermitianOneNorm` (src/lapack/Norms/HermitianOneNorm.cpp).
Entries of type `TT` with an abstract absolute value `absF : TT → R` into a
linearly ordered additive monoid of "real" values, covering both the real
and the complex instantiations uniformly. -/

/-- Modelled from the spec (§3): `utilities::LocalLength(n, shift, stride)`
(not under src/) — the number of global indices below `n` that a process of
shift `shift` holds, `⌈(n − shift)/stride⌉`. -/
def LocalLength (n shift stride : Nat) : Nat := (n + stride - 1 - shift) / stride

theorem localLength_iff (n shift stride t : Nat) (h : shift < stride) :
    t < LocalLength n shift stride ↔ shift + t * stride < n := by
  unfold LocalLength
  rw [Nat.lt_iff_add_one_le, Nat.le_div_iff_mul_le (by omega : 0 < stride)]
  have h1 : (t + 1) * stride = t * stride + stride := by ring
  rw [h1]
  generalize t * stride = u
  omega

theorem residue_recon (k shift stride : Nat) (h : shift < stride)
    (hk : k % stride = shift) :
    shift + (k - shift) / stride * stride = k := by
  have h2 : k - shift = stride * (k / stride) := by
    have h3 := Nat.div_add_mod k stride
    generalize stride * (k / stride) = m at h3 ⊢
    omega
  rw [h2, Nat.mul_div_cancel_left _ (by omega : 0 < stride), ← hk,
    Nat.mod_add_div']

section ResidueSums
variable {R : Type} [AddCommMonoid R]

/-- A process's leading local entries enumerate its residue class below `n`. -/
theorem sum_local_head (f : Nat → R) (n shift stride : Nat) (h : shift < stride) :
    ∑ t ∈ Finset.range (LocalLength n shift stride), f (shift + t * stride)
      = ∑ k ∈ (Finset.range n).filter (fun k => k % stride = shift), f k := by
  refine Finset.sum_nbij' (fun t => shift + t * stride)
    (fun k => (k - shift) / stride) ?_ ?_ ?_ ?_ ?_
  · intro a ha
    rw [Finset.mem_filter, Finset.mem_range]
    exact ⟨(localLength_iff n shift stride a h).mp (Finset.mem_range.mp ha),
      by rw [Nat.add_mul_mod_self_right, Nat.mod_eq_of_lt h]⟩
  · intro k hk
    rw [Finset.mem_filter, Finset.mem_range] at hk
    rw [Finset.mem_range, localLength_iff _ _ _ _ h,
      residue_recon k shift stride h hk.2]
    exact hk.1
  · intro a _
    show (shift + a * stride - shift) / stride = a
    rw [Nat.add_sub_cancel_left, Nat.mul_div_cancel _ (by omega : 0 < stride)]
  · intro k hk
    rw [Finset.mem_filter] at hk
    show shift + (k - shift) / stride * stride = k
    exact residue_recon k shift stride h hk.2
  · intro a _
    rfl

/-- A process's trailing local entries enumerate its residue class in
`[m0, m1)`. -/
theorem sum_local_tail (f : Nat → R) (m0 m1 shift stride : Nat)
    (h : shift < stride) :
    ∑ u ∈ Finset.range (LocalLength m1 shift stride - LocalLength m0 shift stride),
        f (shift + (LocalLength m0 shift stride + u) * stride)
      = ∑ k ∈ (Finset.range m1).filter (fun k => k % stride = shift ∧ m0 ≤ k), f k := by
  have hIco : ∑ u ∈ Finset.range (LocalLength m1 shift stride - LocalLength m0 shift stride),
      f (shift + (LocalLength m0 shift stride + u) * stride)
      = ∑ t ∈ Finset.Ico (LocalLength m0 shift stride) (LocalLength m1 shift stride),
          f (shift + t * stride) := by
    rw [Finset.sum_Ico_eq_sum_range]
  rw [hIco]
  refine Finset.sum_nbij' (fun t => shift + t * stride)
    (fun k => (k - shift) / stride) ?_ ?_ ?_ ?_ ?_
  · intro a ha
    rw [Finset.mem_Ico] at ha
    simp only [Finset.mem_filter, Finset.mem_range]
    refine ⟨(localLength_iff m1 shift stride a h).mp ha.2,
      by rw [Nat.add_mul_mod_self_right, Nat.mod_eq_of_lt h], ?_⟩
    by_contra hlt
    exact absurd ((localLength_iff m0 shift stride a h).mpr (by omega)) (by omega)
  · intro k hk
    simp only [Finset.mem_filter, Finset.mem_range] at hk
    rw [Finset.mem_Ico]
    show LocalLength m0 shift stride ≤ (k - shift) / stride ∧
      (k - shift) / stride < LocalLength m1 shift stride
    constructor
    · by_contra hlt
      have := (localLength_iff m0 shift stride ((k - shift) / stride) h).mp (by omega)
      rw [residue_recon k shift stride h hk.2.1] at this
      omega
    · rw [localLength_iff _ _ _ _ h, residue_recon k shift stride h hk.2.1]
      exact hk.1
  · intro a _
    show (shift + a * stride - shift) / stride = a
    rw [Nat.add_sub_cancel_left, Nat.mul_div_cancel _ (by omega : 0 < stride)]
  · intro k hk
    simp only [Finset.mem_filter, Finset.mem_range] at hk
    show shift + (k - shift) / stride * stride = k
    exact residue_recon k shift stride h hk.2.1
  · intro a _
    rfl

/-- Exactly one process of the axis matches a given residue; its shift is
`(v + align) % stride` backwards. -/
theorem sum_ite_shift (stride a v : Nat) (ha : a < stride) (hv : v < stride)
    (F : Nat → R) :
    ∑ t ∈ Finset.range stride, (if v = (t + stride - a) % stride then F t else 0)
      = F ((v + a) % stride) := by
  rw [Finset.sum_eq_single_of_mem ((v + a) % stride)
    (Finset.mem_range.mpr (Nat.mod_lt _ (by omega)))]
  · rw [if_pos]
    have h1 : (v + a) % stride + stride - a = (v + a) % stride + (stride - a) := by omega
    rw [h1, Nat.mod_add_mod]
    have h2 : v + a + (stride - a) = v + stride := by omega
    rw [h2, Nat.add_mod_right, Nat.mod_eq_of_lt hv]
  · intro t ht hne
    rw [if_neg]
    intro hveq
    apply hne
    have h1 : ((t + stride - a) % stride + a) % stride = t := by
      have h2 : t + stride - a = t + (stride - a) := by omega
      rw [h2, Nat.mod_add_mod]
      have h3 : t + (stride - a) + a = t + stride := by omega
      rw [h3, Nat.add_mod_right, Nat.mod_eq_of_lt (Finset.mem_range.mp ht)]
    rw [← hveq] at h1
    omega

/-- Reindexing a sum over processes by their shifts. -/
theorem sum_shift_reindex (r a : Nat) (ha : a < r) (F : Nat → R) :
    ∑ s ∈ Finset.range r, F ((s + r - a) % r) = ∑ v ∈ Finset.range r, F v := by
  refine Finset.sum_nbij' (fun s => (s + r - a) % r) (fun v => (v + a) % r) ?_ ?_ ?_ ?_ ?_
  · intro s _
    exact Finset.mem_range.mpr (Nat.mod_lt _ (by omega))
  · intro v _
    exact Finset.mem_range.mpr (Nat.mod_lt _ (by omega))
  · intro s hs
    show ((s + r - a) % r + a) % r = s
    have h2 : s + r - a = s + (r - a) := by omega
    rw [h2, Nat.mod_add_mod]
    have h3 : s + (r - a) + a = s + r := by omega
    rw [h3, Nat.add_mod_right, Nat.mod_eq_of_lt (Finset.mem_range.mp hs)]
  · intro v hv
    show ((v + a) % r + r - a) % r = v
    have h2 : (v + a) % r + r - a = (v + a) % r + (r - a) := by omega
    rw [h2, Nat.mod_add_mod]
    have h3 : v + a + (r - a) = v + r := by omega
    rw [h3, Nat.add_mod_right, Nat.mod_eq_of_lt (Finset.mem_range.mp hv)]
  · intro s _
    rfl

end ResidueSums

end Elemental

namespace Elemental

/-- `R maxColSum = 0; for j: maxColSum = max(maxColSum, colSum(j))`. -/
def seqMaxFold {R : Type} [Zero R] [LinearOrder R] (g : Nat → R) : Nat → R
  | 0 => 0
  | n + 1 => max (seqMaxFold g n) (g n)

theorem seqMaxFold_congr {R : Type} [Zero R] [LinearOrder R] (g g' : Nat → R)
    (n : Nat) (h : ∀ u < n, g u = g' u) : seqMaxFold g n = seqMaxFold g' n := by
  induction n with
  | zero => rfl
  | succ n ih =>
      rw [seqMaxFold, seqMaxFold, ih (fun u hu => h u (Nat.lt_succ_of_lt hu)),
        h n (Nat.lt_succ_self n)]

/-- `lapack::HermitianOneNorm(shape, const Matrix<R>&)`
(HermitianOneNorm.cpp lines 36-75; the `std::complex` overload at lines
78-118 is textually identical with `Abs` on complex entries, so both are
covered by the abstract entry type `TT` and absolute value `absF`). -/
def HermitianOneNormSeq {TT R : Type} [AddCommMonoid R] [LinearOrder R]
    (shape : UpperOrLower) (absF : TT → R) (A : Mat TT) : Except String R :=
  if A.h ≠ A.w then Except.error "Hermitian matrices must be square."
  else Except.ok (seqMaxFold (fun j =>
    match shape with
    | UpperOrLower.UPPER =>
        foldSum (fun i => absF (A.e i j)) (j + 1)
          + foldSum (fun u => absF (A.e j (j + 1 + u))) (A.h - (j + 1))
    | UpperOrLower.LOWER =>
        foldSum (fun i => absF (A.e j i)) j
          + foldSum (fun u => absF (A.e (j + u) j)) (A.h - j)) A.w)

/-- A `DistMatrix<.,MC,MR>` over an `r × c` grid: the global matrix plus the
grid extents and alignments.  Process (s,t) holds global entry (i,j) iff
`i ≡ colShift(s) (mod r)` and `j ≡ rowShift(t) (mod c)` with the shifts
given by `utilities::Shift` (spec-modelled, §3, as for [VR,STAR]). -/
structure McMr (TT : Type) where
  A : Mat TT
  r : Nat
  c : Nat
  colAlignment : Nat
  rowAlignment : Nat

def McMr.colShift {TT : Type} (M : McMr TT) (s : Nat) : Nat :=
  vrShift M.r M.colAlignment s

def McMr.rowShift {TT : Type} (M : McMr TT) (t : Nat) : Nat :=
  vrShift M.c M.rowAlignment t

/-- `A.LocalHeight()` on process row `s`. -/
def McMr.localHeight {TT : Type} (M : McMr TT) (s : Nat) : Nat :=
  LocalLength M.A.h (M.colShift s) M.r

/-- `A.LocalWidth()` on process column `t`. -/
def McMr.localWidth {TT : Type} (M : McMr TT) (t : Nat) : Nat :=
  LocalLength M.A.w (M.rowShift t) M.c

/-- `A.GetLocalEntry(iLocal,jLocal)` on process (s,t). -/
def McMr.getLocalEntry {TT : Type} (M : McMr TT) (s t iLocal jLocal : Nat) : TT :=
  M.A.e (M.colShift s + iLocal * M.r) (M.rowShift t + jLocal * M.c)

/-- Upper branch, first loop (lines 146-154): column sums of the stored
upper triangle, `numUpperRows = LocalLength(j+1, colShift, r)`. -/
def myPartialUpperColSums {TT R : Type} [AddCommMonoid R] (absF : TT → R)
    (M : McMr TT) (s t jLocal : Nat) : R :=
  foldSum (fun iLocal => absF (M.getLocalEntry s t iLocal jLocal))
    (LocalLength (M.rowShift t + jLocal * M.c + 1) (M.colShift s) M.r)

/-- Upper branch, second loop (lines 155-163): row sums of the strictly
upper triangle, `jLocal` running from `numLowerCols = LocalLength(i+1,
rowShift, c)` to `LocalWidth`. -/
def myPartialStrictlyUpperRowSums {TT R : Type} [AddCommMonoid R] (absF : TT → R)
    (M : McMr TT) (s t iLocal : Nat) : R :=
  foldSum
    (fun u => absF (M.getLocalEntry s t iLocal
      (LocalLength (M.colShift s + iLocal * M.r + 1) (M.rowShift t) M.c + u)))
    (M.localWidth t
      - LocalLength (M.colShift s + iLocal * M.r + 1) (M.rowShift t) M.c)

/-- Lower branch, first loop (lines 192-201): column sums of the stored
lower triangle, `iLocal` from `numStrictlyUpperRows = LocalLength(j,
colShift, r)` to `LocalHeight`. -/
def myPartialLowerColSums {TT R : Type} [AddCommMonoid R] (absF : TT → R)
    (M : McMr TT) (s t jLocal : Nat) : R :=
  foldSum
    (fun u => absF (M.getLocalEntry s t
      (LocalLength (M.rowShift t + jLocal * M.c) (M.colShift s) M.r + u) jLocal))
    (M.localHeight s
      - LocalLength (M.rowShift t + jLocal * M.c) (M.colShift s) M.r)

/-- Lower branch, second loop (lines 202-210): row sums of the strictly
lower triangle, `jLocal < numStrictlyLowerCols = LocalLength(i, rowShift, c)`. -/
def myPartialStrictlyLowerRowSums {TT R : Type} [AddCommMonoid R] (absF : TT → R)
    (M : McMr TT) (s t iLocal : Nat) : R :=
  foldSum (fun jLocal => absF (M.getLocalEntry s t iLocal jLocal))
    (LocalLength (M.colShift s + iLocal * M.r) (M.rowShift t) M.c)

/-- The `partialColSums` vector built on process (s,t) in the Upper branch
(lines 168-178): zero-initialised, the local column sums assigned at their
global column indices, then the strict row sums added at their global row
indices. -/
def partialUpperColSums {TT R : Type} [AddCommMonoid R] (absF : TT → R)
    (M : McMr TT) (s t : Nat) : Nat → R :=
  iterLoop
    (cellUpd (fun iLocal => M.colShift s + iLocal * M.r)
      (fun iLocal old => old + myPartialStrictlyUpperRowSums absF M s t iLocal))
    (M.localHeight s)
    (iterLoop
      (cellUpd (fun jLocal => M.rowShift t + jLocal * M.c)
        (fun jLocal _ => myPartialUpperColSums absF M s t jLocal))
      (M.localWidth t)
      (fun _ => 0))

/-- The `partialColSums` vector built on process (s,t) in the Lower branch
(lines 215-225). -/
def partialLowerColSums {TT R : Type} [AddCommMonoid R] (absF : TT → R)
    (M : McMr TT) (s t : Nat) : Nat → R :=
  iterLoop
    (cellUpd (fun iLocal => M.colShift s + iLocal * M.r)
      (fun iLocal old => old + myPartialStrictlyLowerRowSums absF M s t iLocal))
    (M.localHeight s)
    (iterLoop
      (cellUpd (fun jLocal => M.rowShift t + jLocal * M.c)
        (fun jLocal _ => myPartialLowerColSums absF M s t jLocal))
      (M.localWidth t)
      (fun _ => 0))

/-- The `colSums` vector after the `AllReduce(..., MPI_SUM, VCComm)`
(lines 179-182): the VC communicator spans the whole `r × c` grid, so every
process obtains the sum of all processes' `partialColSums`. -/
def distColSums {TT R : Type} [AddCommMonoid R] (shape : UpperOrLower)
    (absF : TT → R) (M : McMr TT) (j : Nat) : R :=
  ∑ s ∈ Finset.range M.r, ∑ t ∈ Finset.range M.c,
    (match shape with
      | UpperOrLower.UPPER => partialUpperColSums absF M s t j
      | UpperOrLower.LOWER => partialLowerColSums absF M s t j)

/-- `lapack::HermitianOneNorm(shape, const DistMatrix<R,MC,MR>&)`
(HermitianOneNorm.cpp lines 121-239; the `std::complex` overload at lines
242-359 is textually identical — its Lower branch passes `A.Height()` as the
AllReduce count where the real one passes `A.Width()`, but the two agree
under the square guard).  The result is the same on every process, since
the AllReduce leaves every process with the same `colSums`. -/
def HermitianOneNormDist {TT R : Type} [AddCommMonoid R] [LinearOrder R]
    (shape : UpperOrLower) (absF : TT → R) (M : McMr TT) : Except String R :=
  if M.A.h ≠ M.A.w then Except.error "Hermitian matrices must be square."
  else Except.ok (seqMaxFold (fun j => distColSums shape absF M j) M.A.w)

end Elemental

namespace Elemental

theorem vrShift_lt (p a q : Nat) (hp : 0 < p) : vrShift p a q < p := by
  unfold vrShift
  exact Nat.mod_lt _ hp

/-- Characterisation of the `partialColSums` construction: a zero vector,
column values assigned at indices `rShift + jL*c`, then row values added at
indices `cShift + iL*r`.  Entry `j` holds the column value iff this process
column owns global column `j`, plus the row value iff this process row owns
global row `j`. -/
theorem assignAdd_char {R : Type} [AddCommMonoid R]
    (r c cShift rShift m n : Nat) (V1 V2 : Nat → R) (j : Nat)
    (hr : 0 < r) (hc : 0 < c) (hcs : cShift < r) (hrs : rShift < c)
    (hjn : j < n) (hjm : j < m) :
    iterLoop
      (cellUpd (fun iL => cShift + iL * r) (fun iL old => old + V2 iL))
      (LocalLength m cShift r)
      (iterLoop
        (cellUpd (fun jL => rShift + jL * c) (fun jL _ => V1 jL))
        (LocalLength n rShift c)
        (fun _ => 0)) j
    = (if j % c = rShift then V1 ((j - rShift) / c) else 0)
      + (if j % r = cShift then V2 ((j - cShift) / r) else 0) := by
  set C1 := iterLoop (cellUpd (fun jL => rShift + jL * c) (fun jL _ => V1 jL))
    (LocalLength n rShift c) (fun _ => (0 : R)) with hC1def
  have hC1 : C1 j = if j % c = rShift then V1 ((j - rShift) / c) else 0 := by
    by_cases hmod : j % c = rShift
    · have hrec : rShift + (j - rShift) / c * c = j := residue_recon j rShift c hrs hmod
      have hlt : (j - rShift) / c < LocalLength n rShift c := by
        rw [localLength_iff _ _ _ _ hrs, hrec]
        exact hjn
      have hinj : ∀ a < LocalLength n rShift c, ∀ b < LocalLength n rShift c,
          rShift + a * c = rShift + b * c → a = b := by
        intro a _ b _ hab
        exact Nat.eq_of_mul_eq_mul_right hc (by omega)
      have hhit := cellLoop_hit (fun jL => rShift + jL * c) (fun jL _ => V1 jL)
        (LocalLength n rShift c) (fun _ => (0 : R)) ((j - rShift) / c) hlt hinj
      rw [if_pos hmod]
      calc C1 j = C1 (rShift + (j - rShift) / c * c) := by rw [hrec]
        _ = V1 ((j - rShift) / c) := hhit
    · rw [if_neg hmod, hC1def]
      refine cellLoop_miss _ _ _ _ _ (fun idx _ => ?_)
      intro heq
      apply hmod
      rw [heq, Nat.add_mul_mod_self_right, Nat.mod_eq_of_lt hrs]
  by_cases hmod2 : j % r = cShift
  · have hrec2 : cShift + (j - cShift) / r * r = j := residue_recon j cShift r hcs hmod2
    have hlt2 : (j - cShift) / r < LocalLength m cShift r := by
      rw [localLength_iff _ _ _ _ hcs, hrec2]
      exact hjm
    have hinj2 : ∀ a < LocalLength m cShift r, ∀ b < LocalLength m cShift r,
        cShift + a * r = cShift + b * r → a = b := by
      intro a _ b _ hab
      exact Nat.eq_of_mul_eq_mul_right hr (by omega)
    have hhit2 := cellLoop_hit (fun iL => cShift + iL * r)
      (fun iL old => old + V2 iL) (LocalLength m cShift r) C1
      ((j - cShift) / r) hlt2 hinj2
    rw [if_pos hmod2, ← hC1]
    calc iterLoop
          (cellUpd (fun iL => cShift + iL * r) (fun iL old => old + V2 iL))
          (LocalLength m cShift r) C1 j
        = iterLoop
            (cellUpd (fun iL => cShift + iL * r) (fun iL old => old + V2 iL))
            (LocalLength m cShift r) C1 (cShift + (j - cShift) / r * r) := by
          rw [hrec2]
      _ = C1 (cShift + (j - cShift) / r * r) + V2 ((j - cShift) / r) := hhit2
      _ = C1 j + V2 ((j - cShift) / r) := by rw [hrec2]
  · rw [if_neg hmod2, add_zero, ← hC1]
    refine cellLoop_miss _ _ _ _ _ (fun idx _ => ?_)
    intro heq
    apply hmod2
    rw [heq, Nat.add_mul_mod_self_right, Nat.mod_eq_of_lt hcs]

theorem sum_head_fiber {R : Type} [AddCommMonoid R] (c n : Nat) (hc : 0 < c)
    (f : Nat → R) :
    ∑ v ∈ Finset.range c, ∑ k ∈ (Finset.range n).filter (fun k => k % c = v), f k
      = ∑ k ∈ Finset.range n, f k :=
  Finset.sum_fiberwise_of_maps_to (fun _ _ => Finset.mem_range.mpr (Nat.mod_lt _ hc)) f

theorem sum_conj_fiber {R : Type} [AddCommMonoid R] (c m0 m1 : Nat) (hc : 0 < c)
    (f : Nat → R) :
    ∑ v ∈ Finset.range c,
        ∑ k ∈ (Finset.range m1).filter (fun k => k % c = v ∧ m0 ≤ k), f k
      = ∑ k ∈ Finset.Ico m0 m1, f k := by
  have h1 : ∀ v, (Finset.range m1).filter (fun k => k % c = v ∧ m0 ≤ k)
      = (Finset.Ico m0 m1).filter (fun k => k % c = v) := by
    intro v
    ext k
    simp only [Finset.mem_filter, Finset.mem_Ico, Finset.mem_range]
    constructor
    · rintro ⟨h1, h2, h3⟩
      exact ⟨⟨h3, h1⟩, h2⟩
    · rintro ⟨⟨h3, h1⟩, h2⟩
      exact ⟨h1, h2, h3⟩
  rw [Finset.sum_congr rfl (fun v _ => by rw [h1 v])]
  exact Finset.sum_fiberwise_of_maps_to
    (fun k _ => Finset.mem_range.mpr (Nat.mod_lt _ hc)) f

end Elemental

namespace Elemental

/-- Every process's Upper-branch `partialColSums`, summed over the grid by
the AllReduce, reproduces the sequential Upper column sum at each `j`. -/
theorem distColSums_upper {TT R : Type} [AddCommMonoid R] (absF : TT → R)
    (M : McMr TT) (hr : 0 < M.r) (hc : 0 < M.c)
    (hca : M.colAlignment < M.r) (hra : M.rowAlignment < M.c)
    (hsq : M.A.h = M.A.w) (j : Nat) (hj : j < M.A.w) :
    distColSums UpperOrLower.UPPER absF M j
      = foldSum (fun i => absF (M.A.e i j)) (j + 1)
        + foldSum (fun u => absF (M.A.e j (j + 1 + u))) (M.A.h - (j + 1)) := by
  have h0 : distColSums UpperOrLower.UPPER absF M j
      = ∑ s ∈ Finset.range M.r, ∑ t ∈ Finset.range M.c,
          partialUpperColSums absF M s t j := rfl
  have hchar : ∀ s ∈ Finset.range M.r, ∀ t ∈ Finset.range M.c,
      partialUpperColSums absF M s t j
        = (if j % M.c = M.rowShift t then
            myPartialUpperColSums absF M s t ((j - M.rowShift t) / M.c) else 0)
          + (if j % M.r = M.colShift s then
              myPartialStrictlyUpperRowSums absF M s t ((j - M.colShift s) / M.r)
            else 0) := by
    intro s _ t _
    exact assignAdd_char M.r M.c (M.colShift s) (M.rowShift t) M.A.h M.A.w
      (fun jL => myPartialUpperColSums absF M s t jL)
      (fun iL => myPartialStrictlyUpperRowSums absF M s t iL) j
      hr hc (vrShift_lt M.r M.colAlignment s hr) (vrShift_lt M.c M.rowAlignment t hc)
      hj (by omega)
  rw [h0,
    Finset.sum_congr rfl (fun s hs =>
      Finset.sum_congr rfl (fun t ht => hchar s hs t ht)),
    Finset.sum_congr rfl (fun s _ => Finset.sum_add_distrib),
    Finset.sum_add_distrib]
  have hinner : ∀ s, (∑ t ∈ Finset.range M.c,
      if j % M.c = M.rowShift t then
        myPartialUpperColSums absF M s t ((j - M.rowShift t) / M.c) else 0)
      = ∑ k ∈ (Finset.range (j + 1)).filter (fun k => k % M.r = M.colShift s),
          absF (M.A.e k j) := by
    intro s
    have h1 : (∑ t ∈ Finset.range M.c,
        if j % M.c = M.rowShift t then
          myPartialUpperColSums absF M s t ((j - M.rowShift t) / M.c) else 0)
        = myPartialUpperColSums absF M s ((j % M.c + M.rowAlignment) % M.c)
            ((j - M.rowShift ((j % M.c + M.rowAlignment) % M.c)) / M.c) :=
      sum_ite_shift M.c M.rowAlignment (j % M.c) hra (Nat.mod_lt _ hc)
        (fun t => myPartialUpperColSums absF M s t ((j - M.rowShift t) / M.c))
    have ht0 : M.rowShift ((j % M.c + M.rowAlignment) % M.c) = j % M.c := by
      show vrShift M.c M.rowAlignment ((j % M.c + M.rowAlignment) % M.c) = j % M.c
      rw [Nat.mod_add_mod]
      exact (vrOwner_arith M.c M.rowAlignment j hc hra).1
    have hrec : j % M.c + (j - j % M.c) / M.c * M.c = j :=
      residue_recon j (j % M.c) M.c (Nat.mod_lt _ hc) rfl
    rw [h1]
    simp only [myPartialUpperColSums, McMr.getLocalEntry]
    rw [ht0, hrec, foldSum_eq_sum]
    exact sum_local_head (fun k => absF (M.A.e k j)) (j + 1) (M.colShift s) M.r
      (vrShift_lt M.r M.colAlignment s hr)
  have hA : (∑ s ∈ Finset.range M.r, ∑ t ∈ Finset.range M.c,
      if j % M.c = M.rowShift t then
        myPartialUpperColSums absF M s t ((j - M.rowShift t) / M.c) else 0)
      = foldSum (fun i => absF (M.A.e i j)) (j + 1) := by
    rw [Finset.sum_congr rfl (fun s _ => hinner s)]
    have h2 : (∑ s ∈ Finset.range M.r,
        ∑ k ∈ (Finset.range (j + 1)).filter (fun k => k % M.r = M.colShift s),
          absF (M.A.e k j))
        = ∑ v ∈ Finset.range M.r,
            ∑ k ∈ (Finset.range (j + 1)).filter (fun k => k % M.r = v),
              absF (M.A.e k j) :=
      sum_shift_reindex M.r M.colAlignment hca
        (fun v => ∑ k ∈ (Finset.range (j + 1)).filter (fun k => k % M.r = v),
          absF (M.A.e k j))
    rw [h2, sum_head_fiber M.r (j + 1) hr (fun k => absF (M.A.e k j)),
      foldSum_eq_sum]
  have hB : (∑ s ∈ Finset.range M.r, ∑ t ∈ Finset.range M.c,
      if j % M.r = M.colShift s then
        myPartialStrictlyUpperRowSums absF M s t ((j - M.colShift s) / M.r) else 0)
      = foldSum (fun u => absF (M.A.e j (j + 1 + u))) (M.A.h - (j + 1)) := by
    have hpull : ∀ s, (∑ t ∈ Finset.range M.c,
        if j % M.r = M.colShift s then
          myPartialStrictlyUpperRowSums absF M s t ((j - M.colShift s) / M.r)
        else 0)
        = if j % M.r = M.colShift s then
            ∑ t ∈ Finset.range M.c,
              myPartialStrictlyUpperRowSums absF M s t ((j - M.colShift s) / M.r)
          else 0 := by
      intro s
      split
      · rfl
      · exact Finset.sum_const_zero
    rw [Finset.sum_congr rfl (fun s _ => hpull s)]
    have h1 : (∑ s ∈ Finset.range M.r,
        if j % M.r = M.colShift s then
          ∑ t ∈ Finset.range M.c,
            myPartialStrictlyUpperRowSums absF M s t ((j - M.colShift s) / M.r)
        else 0)
        = ∑ t ∈ Finset.range M.c,
            myPartialStrictlyUpperRowSums absF M ((j % M.r + M.colAlignment) % M.r)
              t ((j - M.colShift ((j % M.r + M.colAlignment) % M.r)) / M.r) :=
      sum_ite_shift M.r M.colAlignment (j % M.r) hca (Nat.mod_lt _ hr)
        (fun s => ∑ t ∈ Finset.range M.c,
          myPartialStrictlyUpperRowSums absF M s t ((j - M.colShift s) / M.r))
    have hs0 : M.colShift ((j % M.r + M.colAlignment) % M.r) = j % M.r := by
      show vrShift M.r M.colAlignment ((j % M.r + M.colAlignment) % M.r) = j % M.r
      rw [Nat.mod_add_mod]
      exact (vrOwner_arith M.r M.colAlignment j hr hca).1
    have hrec : j % M.r + (j - j % M.r) / M.r * M.r = j :=
      residue_recon j (j % M.r) M.r (Nat.mod_lt _ hr) rfl
    rw [h1]
    have hin : ∀ t ∈ Finset.range M.c,
        myPartialStrictlyUpperRowSums absF M ((j % M.r + M.colAlignment) % M.r) t
          ((j - M.colShift ((j % M.r + M.colAlignment) % M.r)) / M.r)
        = ∑ k ∈ (Finset.range M.A.w).filter
            (fun k => k % M.c = M.rowShift t ∧ j + 1 ≤ k), absF (M.A.e j k) := by
      intro t _
      simp only [myPartialStrictlyUpperRowSums, McMr.getLocalEntry, McMr.localWidth]
      rw [hs0, hrec, foldSum_eq_sum]
      exact sum_local_tail (fun k => absF (M.A.e j k)) (j + 1) M.A.w (M.rowShift t)
        M.c (vrShift_lt M.c M.rowAlignment t hc)
    rw [Finset.sum_congr rfl hin]
    have h3 : (∑ t ∈ Finset.range M.c,
        ∑ k ∈ (Finset.range M.A.w).filter
          (fun k => k % M.c = M.rowShift t ∧ j + 1 ≤ k), absF (M.A.e j k))
        = ∑ v ∈ Finset.range M.c,
            ∑ k ∈ (Finset.range M.A.w).filter
              (fun k => k % M.c = v ∧ j + 1 ≤ k), absF (M.A.e j k) :=
      sum_shift_reindex M.c M.rowAlignment hra
        (fun v => ∑ k ∈ (Finset.range M.A.w).filter
          (fun k => k % M.c = v ∧ j + 1 ≤ k), absF (M.A.e j k))
    rw [h3, sum_conj_fiber M.c (j + 1) M.A.w hc (fun k => absF (M.A.e j k)),
      foldSum_eq_sum, Finset.sum_Ico_eq_sum_range, hsq]
  rw [hA, hB]

end Elemental

namespace Elemental

/-- Every process's Lower-branch `partialColSums`, summed over the grid by
the AllReduce, reproduces the sequential Lower column sum at each `j`. -/
theorem distColSums_lower {TT R : Type} [AddCommMonoid R] (absF : TT → R)
    (M : McMr TT) (hr : 0 < M.r) (hc : 0 < M.c)
    (hca : M.colAlignment < M.r) (hra : M.rowAlignment < M.c)
    (hsq : M.A.h = M.A.w) (j : Nat) (hj : j < M.A.w) :
    distColSums UpperOrLower.LOWER absF M j
      = foldSum (fun i => absF (M.A.e j i)) j
        + foldSum (fun u => absF (M.A.e (j + u) j)) (M.A.h - j) := by
  have h0 : distColSums UpperOrLower.LOWER absF M j
      = ∑ s ∈ Finset.range M.r, ∑ t ∈ Finset.range M.c,
          partialLowerColSums absF M s t j := rfl
  have hchar : ∀ s ∈ Finset.range M.r, ∀ t ∈ Finset.range M.c,
      partialLowerColSums absF M s t j
        = (if j % M.c = M.rowShift t then
            myPartialLowerColSums absF M s t ((j - M.rowShift t) / M.c) else 0)
          + (if j % M.r = M.colShift s then
              myPartialStrictlyLowerRowSums absF M s t ((j - M.colShift s) / M.r)
            else 0) := by
    intro s _ t _
    exact assignAdd_char M.r M.c (M.colShift s) (M.rowShift t) M.A.h M.A.w
      (fun jL => myPartialLowerColSums absF M s t jL)
      (fun iL => myPartialStrictlyLowerRowSums absF M s t iL) j
      hr hc (vrShift_lt M.r M.colAlignment s hr) (vrShift_lt M.c M.rowAlignment t hc)
      hj (by omega)
  rw [h0,
    Finset.sum_congr rfl (fun s hs =>
      Finset.sum_congr rfl (fun t ht => hchar s hs t ht)),
    Finset.sum_congr rfl (fun s _ => Finset.sum_add_distrib),
    Finset.sum_add_distrib]
  have hinner : ∀ s, (∑ t ∈ Finset.range M.c,
      if j % M.c = M.rowShift t then
        myPartialLowerColSums absF M s t ((j - M.rowShift t) / M.c) else 0)
      = ∑ k ∈ (Finset.range M.A.h).filter
          (fun k => k % M.r = M.colShift s ∧ j ≤ k), absF (M.A.e k j) := by
    intro s
    have h1 : (∑ t ∈ Finset.range M.c,
        if j % M.c = M.rowShift t then
          myPartialLowerColSums absF M s t ((j - M.rowShift t) / M.c) else 0)
        = myPartialLowerColSums absF M s ((j % M.c + M.rowAlignment) % M.c)
            ((j - M.rowShift ((j % M.c + M.rowAlignment) % M.c)) / M.c) :=
      sum_ite_shift M.c M.rowAlignment (j % M.c) hra (Nat.mod_lt _ hc)
        (fun t => myPartialLowerColSums absF M s t ((j - M.rowShift t) / M.c))
    have ht0 : M.rowShift ((j % M.c + M.rowAlignment) % M.c) = j % M.c := by
      show vrShift M.c M.rowAlignment ((j % M.c + M.rowAlignment) % M.c) = j % M.c
      rw [Nat.mod_add_mod]
      exact (vrOwner_arith M.c M.rowAlignment j hc hra).1
    have hrec : j % M.c + (j - j % M.c) / M.c * M.c = j :=
      residue_recon j (j % M.c) M.c (Nat.mod_lt _ hc) rfl
    rw [h1]
    simp only [myPartialLowerColSums, McMr.getLocalEntry, McMr.localHeight]
    rw [ht0, hrec, foldSum_eq_sum]
    exact sum_local_tail (fun k => absF (M.A.e k j)) j M.A.h (M.colShift s) M.r
      (vrShift_lt M.r M.colAlignment s hr)
  have hA : (∑ s ∈ Finset.range M.r, ∑ t ∈ Finset.range M.c,
      if j % M.c = M.rowShift t then
        myPartialLowerColSums absF M s t ((j - M.rowShift t) / M.c) else 0)
      = foldSum (fun u => absF (M.A.e (j + u) j)) (M.A.h - j) := by
    rw [Finset.sum_congr rfl (fun s _ => hinner s)]
    have h2 : (∑ s ∈ Finset.range M.r,
        ∑ k ∈ (Finset.range M.A.h).filter
          (fun k => k % M.r = M.colShift s ∧ j ≤ k), absF (M.A.e k j))
        = ∑ v ∈ Finset.range M.r,
            ∑ k ∈ (Finset.range M.A.h).filter
              (fun k => k % M.r = v ∧ j ≤ k), absF (M.A.e k j) :=
      sum_shift_reindex M.r M.colAlignment hca
        (fun v => ∑ k ∈ (Finset.range M.A.h).filter
          (fun k => k % M.r = v ∧ j ≤ k), absF (M.A.e k j))
    rw [h2, sum_conj_fiber M.r j M.A.h hr (fun k => absF (M.A.e k j)),
      foldSum_eq_sum, Finset.sum_Ico_eq_sum_range]
  have hB : (∑ s ∈ Finset.range M.r, ∑ t ∈ Finset.range M.c,
      if j % M.r = M.colShift s then
        myPartialStrictlyLowerRowSums absF M s t ((j - M.colShift s) / M.r) else 0)
      = foldSum (fun i => absF (M.A.e j i)) j := by
    have hpull : ∀ s, (∑ t ∈ Finset.range M.c,
        if j % M.r = M.colShift s then
          myPartialStrictlyLowerRowSums absF M s t ((j - M.colShift s) / M.r)
        else 0)
        = if j % M.r = M.colShift s then
            ∑ t ∈ Finset.range M.c,
              myPartialStrictlyLowerRowSums absF M s t ((j - M.colShift s) / M.r)
          else 0 := by
      intro s
      split
      · rfl
      · exact Finset.sum_const_zero
    rw [Finset.sum_congr rfl (fun s _ => hpull s)]
    have h1 : (∑ s ∈ Finset.range M.r,
        if j % M.r = M.colShift s then
          ∑ t ∈ Finset.range M.c,
            myPartialStrictlyLowerRowSums absF M s t ((j - M.colShift s) / M.r)
        else 0)
        = ∑ t ∈ Finset.range M.c,
            myPartialStrictlyLowerRowSums absF M ((j % M.r + M.colAlignment) % M.r)
              t ((j - M.colShift ((j % M.r + M.colAlignment) % M.r)) / M.r) :=
      sum_ite_shift M.r M.colAlignment (j % M.r) hca (Nat.mod_lt _ hr)
        (fun s => ∑ t ∈ Finset.range M.c,
          myPartialStrictlyLowerRowSums absF M s t ((j - M.colShift s) / M.r))
    have hs0 : M.colShift ((j % M.r + M.colAlignment) % M.r) = j % M.r := by
      show vrShift M.r M.colAlignment ((j % M.r + M.colAlignment) % M.r) = j % M.r
      rw [Nat.mod_add_mod]
      exact (vrOwner_arith M.r M.colAlignment j hr hca).1
    have hrec : j % M.r + (j - j % M.r) / M.r * M.r = j :=
      residue_recon j (j % M.r) M.r (Nat.mod_lt _ hr) rfl
    rw [h1]
    have hin : ∀ t ∈ Finset.range M.c,
        myPartialStrictlyLowerRowSums absF M ((j % M.r + M.colAlignment) % M.r) t
          ((j - M.colShift ((j % M.r + M.colAlignment) % M.r)) / M.r)
        = ∑ k ∈ (Finset.range j).filter (fun k => k % M.c = M.rowShift t),
            absF (M.A.e j k) := by
      intro t _
      simp only [myPartialStrictlyLowerRowSums, McMr.getLocalEntry]
      rw [hs0, hrec, foldSum_eq_sum]
      exact sum_local_head (fun k => absF (M.A.e j k)) j (M.rowShift t) M.c
        (vrShift_lt M.c M.rowAlignment t hc)
    rw [Finset.sum_congr rfl hin]
    have h3 : (∑ t ∈ Finset.range M.c,
        ∑ k ∈ (Finset.range j).filter (fun k => k % M.c = M.rowShift t),
          absF (M.A.e j k))
        = ∑ v ∈ Finset.range M.c,
            ∑ k ∈ (Finset.range j).filter (fun k => k % M.c = v),
              absF (M.A.e j k) :=
      sum_shift_reindex M.c M.rowAlignment hra
        (fun v => ∑ k ∈ (Finset.range j).filter (fun k => k % M.c = v),
          absF (M.A.e j k))
    rw [h3, sum_head_fiber M.c j hc (fun k => absF (M.A.e j k)), foldSum_eq_sum]
  rw [hA, hB, add_comm]

end Elemental

namespace Elemental

/-- **C10**: for every shape in {Upper, Lower} and every `[MC,MR]`-distributed
matrix over an `r × c` grid with valid alignments, the distributed
`lapack::HermitianOneNorm` returns — identically on every process, since the
AllReduce over the VC communicator leaves all processes with the same
`colSums` — exactly the value of the sequential `lapack::HermitianOneNorm`
applied to a single `Matrix` holding the full global data; non-square inputs
raise the same "Hermitian matrices must be square." error on both sides. -/
theorem C10_hermitianOneNorm_refines {TT R : Type} [AddCommMonoid R]
    [LinearOrder R] (shape : UpperOrLower) (absF : TT → R) (M : McMr TT)
    (hr : 0 < M.r) (hc : 0 < M.c)
    (hca : M.colAlignment < M.r) (hra : M.rowAlignment < M.c) :
    HermitianOneNormDist shape absF M = HermitianOneNormSeq shape absF M.A := by
  cases shape with
  | UPPER =>
      unfold HermitianOneNormDist HermitianOneNormSeq
      by_cases hsq : M.A.h = M.A.w
      · rw [if_neg (by omega : ¬M.A.h ≠ M.A.w),
          if_neg (by omega : ¬M.A.h ≠ M.A.w)]
        exact congrArg Except.ok (seqMaxFold_congr _ _ M.A.w
          (fun u hu => distColSums_upper absF M hr hc hca hra hsq u hu))
      · rw [if_pos hsq, if_pos hsq]
  | LOWER =>
      unfold HermitianOneNormDist HermitianOneNormSeq
      by_cases hsq : M.A.h = M.A.w
      · rw [if_neg (by omega : ¬M.A.h ≠ M.A.w),
          if_neg (by omega : ¬M.A.h ≠ M.A.w)]
        exact congrArg Except.ok (seqMaxFold_congr _ _ M.A.w
          (fun u hu => distColSums_lower absF M hr hc hca hra hsq u hu))
      · rw [if_pos hsq, if_pos hsq]

def c10M : McMr ℤ :=
  McMr.mk (Mat.mk 3 3 (fun i j => (i * 7 + j * 3 + 1 : ℤ))) 2 2 1 0

/-- Witness for C10: on a concrete 3×3 integer matrix distributed over a
2×2 grid with column alignment 1, the distributed and sequential Hermitian
one-norms coincide. -/
theorem C10_hermitianOneNorm_refines_witness :
    (0 : Nat) < c10M.r ∧ (0 : Nat) < c10M.c
      ∧ c10M.colAlignment < c10M.r ∧ c10M.rowAlignment < c10M.c
      ∧ HermitianOneNormDist UpperOrLower.LOWER (fun x : ℤ => x.natAbs) c10M
          = HermitianOneNormSeq UpperOrLower.LOWER (fun x : ℤ => x.natAbs) c10M.A :=
  ⟨by decide, by decide, by decide, by decide,
    C10_hermitianOneNorm_refines UpperOrLower.LOWER (fun x : ℤ => x.natAbs) c10M
      (by decide) (by decide) (by decide) (by decide)⟩

end Elemental
